import Mathlib

set_option maxRecDepth 65536

/-!
Verification of the upb message-layout computation (`upbc/message_layout.h`,
`upbc/message_layout.cc`) against its specification.

The development shallowly embeds the layout algorithm: the C++ classes become
Lean structures, the stateful `MessageLayout` construction becomes explicit
state passing over a `LayoutState`, machine integers become `Nat` (all the
quantities involved are non-negative and far below 2^64, so no wrap-around can
occur on the modelled inputs), and the fatal `exit(1)` on the required-hasbit
limit becomes an `Except` error value.

Two ghost components are added to the state purely for specification purposes
and influence nothing the algorithm computes:
  * `placed` records, in chronological order, every region handed out by
    `Place` (its tag, offset, size and alignment);
  * `align_log` records every value passed as the `align` argument of the
    `Align` primitive, i.e. the argument of `ABSL_ASSERT(IsPowerOfTwo(align))`.
-/

/-- Dual-width size: `struct Size` from message_layout.h (int64_t size32 /
size64; both components are non-negative throughout, modelled as `Nat`). -/
structure DualSize where
  size32 : Nat
  size64 : Nat
deriving DecidableEq

/-- `Size::Add`. -/
def DualSize.add (a b : DualSize) : DualSize :=
  ⟨a.size32 + b.size32, a.size64 + b.size64⟩

/-- `Size::MaxFrom`. -/
def DualSize.maxFrom (a b : DualSize) : DualSize :=
  ⟨max a.size32 b.size32, max a.size64 b.size64⟩

/-- `MessageLayout::IsPowerOfTwo`: `(val & (val - 1)) == 0` (note that, as in
the source, this accepts `0`). -/
def IsPowerOfTwo (val : Nat) : Bool :=
  (val &&& (val - 1)) == 0

/-- `MessageLayout::Align`: `(val + align - 1) & ~(align - 1)`.
For `align ≥ 1` the C expression equals
`(val + align - 1) - ((val + align - 1) & (align - 1))`, which is how we write
it over `Nat` (masking with the 64-bit complement is subtraction of the masked
part).  For `align = 0` the C mask `~(size_t)(-1)` is `0`, so the result is
`0`.  The source asserts `IsPowerOfTwo align`; the assertion's argument is
recorded in the ghost `align_log` at every call site. -/
def Align (val align : Nat) : Nat :=
  if align = 0 then 0
  else (val + align - 1) - ((val + align - 1) &&& (align - 1))

/-- `Size::AlignUp`: component-wise `Align`. -/
def DualSize.alignUp (a align : DualSize) : DualSize :=
  ⟨Align a.size32 align.size32, Align a.size64 align.size64⟩

/-- `struct SizeAndAlign`. -/
structure SizeAndAlign where
  size : DualSize
  align : DualSize
deriving DecidableEq

/-- `SizeAndAlign::MaxFrom`. -/
def SizeAndAlign.maxFrom (a b : SizeAndAlign) : SizeAndAlign :=
  ⟨a.size.maxFrom b.size, a.align.maxFrom b.align⟩

/-- `DivRoundUp` from message_layout.cc. -/
def DivRoundUp (a b : Nat) : Nat :=
  (a + b - 1) / b

/-- The `FieldDescriptor::CppType` values used by the algorithm. -/
inductive CppType
  | message
  | string
  | bool
  | float
  | int32
  | uint32
  | enum
  | int64
  | uint64
  | double
deriving DecidableEq

/-- The facet of `google::protobuf::FieldDescriptor` the algorithm reads.
Synthetic (proto3-optional) oneofs are not modelled, so `containing_oneof`
plays the role of both `containing_oneof()` and `real_containing_oneof()`;
a member field carries the full name of its containing oneof. -/
structure FieldDescriptor where
  number : Nat
  cpp_type : CppType
  is_repeated : Bool
  is_required : Bool
  has_presence : Bool
  containing_oneof : Option String
  full_name : String
deriving DecidableEq

/-- The facet of `google::protobuf::Descriptor` the algorithm reads: fields in
declaration order, oneof declarations (by fully-qualified name) in declaration
order, and the `map_entry` option. -/
structure Descriptor where
  full_name : String
  map_entry : Bool
  fields : List FieldDescriptor
  oneof_decls : List String
deriving DecidableEq

/-- `MessageLayout::HasHasbit`; the containing message's `map_entry` option is
passed explicitly (the C++ reaches it through `field->containing_type()`). -/
def HasHasbit (map_entry : Bool) (f : FieldDescriptor) : Bool :=
  f.has_presence && f.containing_oneof == none && !map_entry

/-- `MessageLayout::SizeOfUnwrapped`. -/
def SizeOfUnwrapped (f : FieldDescriptor) : SizeAndAlign :=
  match f.cpp_type with
  | .message => ⟨⟨4, 8⟩, ⟨4, 8⟩⟩
  | .string => ⟨⟨8, 16⟩, ⟨4, 8⟩⟩
  | .bool => ⟨⟨1, 1⟩, ⟨1, 1⟩⟩
  | .float | .int32 | .uint32 | .enum => ⟨⟨4, 4⟩, ⟨4, 4⟩⟩
  | .int64 | .uint64 | .double => ⟨⟨8, 8⟩, ⟨8, 8⟩⟩

/-- `MessageLayout::SizeOf`. -/
def SizeOfField (f : FieldDescriptor) : SizeAndAlign :=
  if f.is_repeated then ⟨⟨4, 8⟩, ⟨4, 8⟩⟩ else SizeOfUnwrapped f

/-- The `rank` local of `MessageLayout::FieldLayoutRank`.  The source aborts
if the field belongs to a oneof; both call sites (the sort of `field_order`
and its comparator) only ever apply it to non-oneof fields, so the dead abort
branch is omitted.  Note the `default:` case of the C++ switch:
`CPPTYPE_ENUM` is not listed with the other 4-byte scalars and therefore
falls into rank 1. -/
def rankBucket (f : FieldDescriptor) : Nat :=
  if f.is_repeated then 6
  else
    match f.cpp_type with
    | .message => 5
    | .string => 4
    | .bool => 3
    | .float | .int32 | .uint32 => 2
    | _ => 1

/-- `MessageLayout::FieldLayoutRank`: `(rank << 29) | field->number()`. -/
def FieldLayoutRank (f : FieldDescriptor) : Nat :=
  (rankBucket f <<< 29) ||| f.number

/-- The comparator of the `field_order` sort in `PlaceNonOneofFields`
(non-strict form of `FieldLayoutRank a < FieldLayoutRank b`). -/
def rankLE (a b : FieldDescriptor) : Prop :=
  FieldLayoutRank a ≤ FieldLayoutRank b

instance : DecidableRel rankLE := fun a b => by
  unfold rankLE; infer_instance

instance : IsTotal FieldDescriptor rankLE :=
  ⟨fun _ _ => Nat.le_total _ _⟩

instance : IsTrans FieldDescriptor rankLE :=
  ⟨fun _ _ _ => Nat.le_trans⟩

/-- The comparator of `FieldHotnessOrder`
(non-strict form of `make_pair(!a->is_required(), a->number()) < ...`). -/
def hotnessLE (a b : FieldDescriptor) : Prop :=
  (if a.is_required then (0 : Nat) else 1) < (if b.is_required then (0 : Nat) else 1) ∨
    ((if a.is_required then (0 : Nat) else 1) = (if b.is_required then (0 : Nat) else 1) ∧
      a.number ≤ b.number)

instance : DecidableRel hotnessLE := fun a b => by
  unfold hotnessLE; infer_instance

instance : IsTotal FieldDescriptor hotnessLE :=
  ⟨fun a b => by unfold hotnessLE; omega⟩

instance : IsTrans FieldDescriptor hotnessLE :=
  ⟨fun a b c h1 h2 => by
    unfold hotnessLE at *; omega⟩

/-- `FieldHotnessOrder` from message_layout.h: all direct fields sorted by
(is-not-required, number); `std::sort` with a strict-weak comparator whose
keys are distinct on valid input is modelled by insertion sort on the
non-strict comparator. -/
def FieldHotnessOrder (d : Descriptor) : List FieldDescriptor :=
  List.insertionSort hotnessLE d.fields

/-- Ghost tag describing what a `Place` call was for. -/
inductive RegionTag
  | hasbits
  | fieldData (number : Nat)
  | oneofData (oneof_name : String)
  | oneofCase (oneof_name : String)
deriving DecidableEq

/-- One `Place` call recorded in the ghost trace. -/
structure PlacedRegion where
  tag : RegionTag
  offset : DualSize
  size : DualSize
  align : DualSize
deriving DecidableEq

/-- The mutable state of a `MessageLayout` under construction.  The three
`absl::flat_hash_map` members become lookup functions; the three `int`
members are `Option Nat`, `none` standing for the C++ member being
never-assigned (the constructor does not zero-initialize them).
`placed` and `align_log` are ghost instrumentation (see the file header). -/
structure LayoutState where
  field_offsets : Nat → Option DualSize
  hasbit_indexes : Nat → Option Nat
  oneof_case_offsets : String → Option DualSize
  maxalign : DualSize
  size : DualSize
  hasbit_count : Option Nat
  hasbit_bytes : Option Nat
  required_count : Option Nat
  placed : List PlacedRegion
  align_log : List Nat

/-- `MessageLayout::Place`. -/
def Place (st : LayoutState) (tag : RegionTag) (sa : SizeAndAlign) :
    DualSize × LayoutState :=
  let offset := st.size.alignUp sa.align
  ⟨offset,
    { st with
      size := offset.add sa.size
      maxalign := st.maxalign.maxFrom sa.size
      placed := st.placed ++ [⟨tag, offset, sa.size, sa.align⟩]
      align_log := st.align_log ++ [sa.align.size32, sa.align.size64] }⟩

/-- The fatal terminations of the layout computation.  `tooManyRequired`
models the `exit(1)` in `PlaceNonOneofFields` and carries the name printed in
the diagnostic (`field->full_name()`). -/
inductive LayoutFailure
  | tooManyRequired (reported_full_name : String)
deriving DecidableEq

/-- The hasbit-assignment loop of `PlaceNonOneofFields` (message_layout.cc
lines 171-189), iterating the hotness order. -/
def placeHasbits (map_entry : Bool) :
    List FieldDescriptor → LayoutState → Except LayoutFailure LayoutState
  | [], st => .ok st
  | f :: rest, st =>
    if HasHasbit map_entry f then
      let index := st.hasbit_count.getD 0 + 1
      let st' := { st with
        hasbit_count := some index
        hasbit_indexes := fun n => if n = f.number then some index else st.hasbit_indexes n }
      if f.is_required then
        if 63 < index then .error (.tooManyRequired f.full_name)
        else
          placeHasbits map_entry rest
            { st' with required_count := some (st'.required_count.getD 0 + 1) }
      else placeHasbits map_entry rest st'
    else placeHasbits map_entry rest st

/-- The final loop of `PlaceNonOneofFields`: place each non-oneof field in
`field_order`. -/
def placeFieldList : List FieldDescriptor → LayoutState → LayoutState
  | [], st => st
  | f :: rest, st =>
    let p := Place st (.fieldData f.number) (SizeOfField f)
    placeFieldList rest
      { p.2 with
        field_offsets := fun n => if n = f.number then some p.1 else p.2.field_offsets n }

/-- `MessageLayout::PlaceNonOneofFields`. -/
def PlaceNonOneofFields (d : Descriptor) (st0 : LayoutState) :
    Except LayoutFailure LayoutState :=
  let field_order :=
    List.insertionSort rankLE (d.fields.filter (fun f => f.containing_oneof == none))
  let st1 := { st0 with hasbit_count := some 0, required_count := some 0 }
  match placeHasbits d.map_entry (FieldHotnessOrder d) st1 with
  | .error e => .error e
  | .ok st2 =>
    let hb := st2.hasbit_count.getD 0
    let st3 := { st2 with hasbit_bytes := some (DivRoundUp hb 8) }
    let p := Place st3 .hasbits ⟨⟨DivRoundUp hb 8, DivRoundUp hb 8⟩, ⟨1, 1⟩⟩
    .ok (placeFieldList field_order p.2)

/-- `oneof->field(i)` enumeration: the message's fields belonging to the given
oneof, in declaration order. -/
def oneofFieldsOf (d : Descriptor) (oneof_name : String) : List FieldDescriptor :=
  d.fields.filter (fun f => f.containing_oneof == some oneof_name)

/-- The max-size accumulation of `PlaceOneofFields`. -/
def oneofMaxSize (members : List FieldDescriptor) : SizeAndAlign :=
  members.foldl (fun acc f => acc.maxFrom (SizeOfField f)) ⟨⟨0, 0⟩, ⟨0, 0⟩⟩

/-- The member-offset assignment loop of `PlaceOneofFields`: every member
field of the oneof is mapped to the shared data offset. -/
def setMemberOffsets (members : List FieldDescriptor) (data : DualSize)
    (m : Nat → Option DualSize) : Nat → Option DualSize :=
  members.foldl (fun acc f => fun n => if n = f.number then some data else acc n) m

/-- The per-oneof loop of `PlaceOneofFields`. -/
def placeOneofList (d : Descriptor) : List String → LayoutState → LayoutState
  | [], st => st
  | o :: rest, st =>
    let members := oneofFieldsOf d o
    let ms := oneofMaxSize members
    let p1 := Place st (.oneofData o) ms
    let p2 := Place p1.2 (.oneofCase o) ⟨⟨4, 4⟩, ⟨4, 4⟩⟩
    placeOneofList d rest
      { p2.2 with
        oneof_case_offsets := fun s => if s = o then some p2.1 else p2.2.oneof_case_offsets s
        field_offsets := setMemberOffsets members p1.1 p2.2.field_offsets }

/-- `MessageLayout::PlaceOneofFields`: oneofs sorted by full name. -/
def PlaceOneofFields (d : Descriptor) (st : LayoutState) : LayoutState :=
  placeOneofList d (List.insertionSort (fun a b : String => a ≤ b) d.oneof_decls) st

/-- The state at entry of the `MessageLayout` constructor: no map entry is
present and the `int` members are uninitialized. -/
def initLayoutState : LayoutState :=
  { field_offsets := fun _ => none
    hasbit_indexes := fun _ => none
    oneof_case_offsets := fun _ => none
    maxalign := ⟨0, 0⟩
    size := ⟨0, 0⟩
    hasbit_count := none
    hasbit_bytes := none
    required_count := none
    placed := []
    align_log := [] }

/-- The final `size_.AlignUp(maxalign_)` of `ComputeLayout`. -/
def finalAlign (st : LayoutState) : LayoutState :=
  { st with
    size := st.size.alignUp st.maxalign
    align_log := st.align_log ++ [st.maxalign.size32, st.maxalign.size64] }

/-- `MessageLayout::ComputeLayout`.  In the map-entry branch the source looks
up the key and value fields with `FindFieldByNumber(1)` / `FindFieldByNumber(2)`
and stores their offsets; the offset maps are keyed by field number, so the
lookups become the literal keys 1 and 2. -/
def ComputeLayout (d : Descriptor) : Except LayoutFailure LayoutState :=
  let st := { initLayoutState with size := ⟨0, 0⟩, maxalign := ⟨8, 8⟩ }
  if d.map_entry then
    let sa : SizeAndAlign := ⟨⟨8, 16⟩, ⟨4, 8⟩⟩
    let p1 := Place st (.fieldData 1) sa
    let st1 := { p1.2 with
      field_offsets := fun n => if n = 1 then some p1.1 else p1.2.field_offsets n }
    let p2 := Place st1 (.fieldData 2) sa
    let st2 := { p2.2 with
      field_offsets := fun n => if n = 2 then some p2.1 else p2.2.field_offsets n }
    .ok (finalAlign st2)
  else
    match PlaceNonOneofFields d st with
    | .error e => .error e
    | .ok st' => .ok (finalAlign (PlaceOneofFields d st'))

/-- Public query `MessageLayout::hasbit_count()`; reading the member of a
layout on which it was never assigned yields `none` (indeterminate). -/
def MessageLayout.hasbit_count (st : LayoutState) : Option Nat :=
  st.hasbit_count

/-- Public query `MessageLayout::hasbit_bytes()`. -/
def MessageLayout.hasbit_bytes (st : LayoutState) : Option Nat :=
  st.hasbit_bytes

/-- Public query `MessageLayout::required_count()`. -/
def MessageLayout.required_count (st : LayoutState) : Option Nat :=
  st.required_count

/-- Validity of a schema message descriptor, as guaranteed by the (external)
protobuf descriptor layer: field numbers are distinct and below 2^29, oneof
names are distinct, every field's containing oneof is declared, and every
declared oneof has at least one member field. -/
def WF (d : Descriptor) : Prop :=
  (d.fields.map (fun f => f.number)).Nodup ∧
    (∀ f ∈ d.fields, f.number < 2 ^ 29) ∧
    d.oneof_decls.Nodup ∧
    (∀ f ∈ d.fields, f.containing_oneof = none ∨
      ∃ o ∈ d.oneof_decls, f.containing_oneof = some o) ∧
    (∀ o ∈ d.oneof_decls, ∃ f ∈ d.fields, f.containing_oneof = some o)

instance (d : Descriptor) : Decidable (WF d) := by
  unfold WF; infer_instance

/-- Probe: the computed layout, `none` on the fatal path. -/
def layoutOf (d : Descriptor) : Option LayoutState :=
  (ComputeLayout d).toOption

/-- Probe: the name carried by the fatal diagnostic, if the computation
failed. -/
def errorNameOf (d : Descriptor) : Option String :=
  match ComputeLayout d with
  | .error (.tooManyRequired s) => some s
  | .ok _ => none

/-- The number of required fields that carry a presence bit (the fields
counted by both `required_count_` and the 63-limit check). -/
def requiredHasbitCount (d : Descriptor) : Nat :=
  (d.fields.filter (fun f => HasHasbit d.map_entry f && f.is_required)).length

/-- The sublist of `l` whose members get presence bits, in order. -/
def hasbitFields (map_entry : Bool) (l : List FieldDescriptor) : List FieldDescriptor :=
  l.filter (fun f => HasHasbit map_entry f)

/-- Every placed region ends at or before the current running size (under
both widths). -/
def Bounded (st : LayoutState) : Prop :=
  ∀ r ∈ st.placed, r.offset.size32 + r.size.size32 ≤ st.size.size32 ∧
    r.offset.size64 + r.size.size64 ≤ st.size.size64

/-- The regions of a trace appear in bump order: each one ends at or before
the next begins (under both widths). -/
def Separated (rs : List PlacedRegion) : Prop :=
  rs.Pairwise (fun r1 r2 =>
    r1.offset.size32 + r1.size.size32 ≤ r2.offset.size32 ∧
      r1.offset.size64 + r1.size.size64 ≤ r2.offset.size64)

/-- Both alignment components of a shape are at least 1 (true of every shape
the algorithm ever places on a valid schema). -/
def alignPos (sa : SizeAndAlign) : Prop :=
  1 ≤ sa.align.size32 ∧ 1 ≤ sa.align.size64

/-- The running invariant of the bump allocator: every placed region ends at
or before the running size, the trace is in bump order, and the running
maximum alignment is positive. -/
def StInv (st : LayoutState) : Prop :=
  Bounded st ∧ Separated st.placed ∧ 1 ≤ st.maxalign.size32 ∧ 1 ≤ st.maxalign.size64

/-! Concrete schema inputs used by witnesses and counterexamples. -/

/-- An optional (explicit-presence, non-required) bool field. -/
def mkOptBool (n : Nat) : FieldDescriptor :=
  { number := n, cpp_type := .bool, is_repeated := false, is_required := false,
    has_presence := true, containing_oneof := none, full_name := "T.g" ++ toString n }

/-- A message with 65 optional bool fields: 65 presence bits make the
presence region 9 bytes wide, and 9 is not a power of two. -/
def d65opt : Descriptor :=
  { full_name := "T", map_entry := false,
    fields := (List.range 65).map (fun i => mkOptBool (i + 1)), oneof_decls := [] }

/-- A required bool field of message `M`. -/
def mkReqBool (n : Nat) : FieldDescriptor :=
  { number := n, cpp_type := .bool, is_repeated := false, is_required := true,
    has_presence := true, containing_oneof := none, full_name := "M.f" ++ toString n }

/-- A message named `M` with 64 required fields, each needing a presence
bit. -/
def d64req : Descriptor :=
  { full_name := "M", map_entry := false,
    fields := (List.range 64).map (fun i => mkReqBool (i + 1)), oneof_decls := [] }

/-- A singular proto2 enum field (wire number 7). -/
def enumSingular : FieldDescriptor :=
  { number := 7, cpp_type := .enum, is_repeated := false, is_required := false,
    has_presence := true, containing_oneof := none, full_name := "M.e" }

/-- A synthetic map-entry message descriptor. -/
def dMapEntry : Descriptor :=
  { full_name := "M.Entry", map_entry := true,
    fields :=
      [{ number := 1, cpp_type := .int32, is_repeated := false, is_required := false,
         has_presence := false, containing_oneof := none, full_name := "M.Entry.key" },
       { number := 2, cpp_type := .int64, is_repeated := false, is_required := false,
         has_presence := false, containing_oneof := none, full_name := "M.Entry.value" }],
    oneof_decls := [] }

/-- An ordinary message exercising every pass: a required int32, an optional
string, a repeated message, and a oneof with an int32 and a message member. -/
def dFull : Descriptor :=
  { full_name := "P.W", map_entry := false,
    fields :=
      [{ number := 3, cpp_type := .string, is_repeated := false, is_required := false,
         has_presence := true, containing_oneof := none, full_name := "P.W.s" },
       { number := 2, cpp_type := .int32, is_repeated := false, is_required := true,
         has_presence := true, containing_oneof := none, full_name := "P.W.r" },
       { number := 4, cpp_type := .message, is_repeated := true, is_required := false,
         has_presence := false, containing_oneof := none, full_name := "P.W.m" },
       { number := 5, cpp_type := .int32, is_repeated := false, is_required := false,
         has_presence := true, containing_oneof := some "P.W.u", full_name := "P.W.a" },
       { number := 6, cpp_type := .message, is_repeated := false, is_required := false,
         has_presence := true, containing_oneof := some "P.W.u", full_name := "P.W.b" }],
    oneof_decls := ["P.W.u"] }

/-- `dFull` with its declaration order permuted (fields and oneofs shuffled). -/
def dFullPerm : Descriptor :=
  { full_name := "P.W", map_entry := false,
    fields :=
      [{ number := 6, cpp_type := .message, is_repeated := false, is_required := false,
         has_presence := true, containing_oneof := some "P.W.u", full_name := "P.W.b" },
       { number := 4, cpp_type := .message, is_repeated := true, is_required := false,
         has_presence := false, containing_oneof := none, full_name := "P.W.m" },
       { number := 2, cpp_type := .int32, is_repeated := false, is_required := true,
         has_presence := true, containing_oneof := none, full_name := "P.W.r" },
       { number := 5, cpp_type := .int32, is_repeated := false, is_required := false,
         has_presence := true, containing_oneof := some "P.W.u", full_name := "P.W.a" },
       { number := 3, cpp_type := .string, is_repeated := false, is_required := false,
         has_presence := true, containing_oneof := none, full_name := "P.W.s" }],
    oneof_decls := ["P.W.u"] }

/-! ### Arithmetic facts about the `Align` primitive -/

theorem Align_zero_val (a : Nat) : Align 0 a = 0 := by
  unfold Align
  split
  · rfl
  · simp [Nat.and_self]

theorem le_Align (v : Nat) {a : Nat} (h : 1 ≤ a) : v ≤ Align v a := by
  unfold Align
  rw [if_neg (by omega)]
  have h2 : (v + a - 1) &&& (a - 1) ≤ a - 1 := Nat.and_le_right
  omega

theorem Align_pow2_mod (v k : Nat) : Align v (2 ^ k) % 2 ^ k = 0 := by
  have hpos : (0 : Nat) < 2 ^ k := Nat.pos_pow_of_pos k (by omega)
  unfold Align
  rw [if_neg (by omega), Nat.and_pow_two_sub_one_eq_mod]
  have hd := Nat.div_add_mod (v + 2 ^ k - 1) (2 ^ k)
  have he : v + 2 ^ k - 1 - (v + 2 ^ k - 1) % 2 ^ k = 2 ^ k * ((v + 2 ^ k - 1) / 2 ^ k) := by
    omega
  rw [he, Nat.mul_mod_right]

@[simp] theorem DualSize.alignUp_size32 (a al : DualSize) :
    (a.alignUp al).size32 = Align a.size32 al.size32 := rfl

@[simp] theorem DualSize.alignUp_size64 (a al : DualSize) :
    (a.alignUp al).size64 = Align a.size64 al.size64 := rfl

@[simp] theorem DualSize.add_size32 (a b : DualSize) :
    (a.add b).size32 = a.size32 + b.size32 := rfl

@[simp] theorem DualSize.add_size64 (a b : DualSize) :
    (a.add b).size64 = a.size64 + b.size64 := rfl

@[simp] theorem DualSize.maxFrom_size32 (a b : DualSize) :
    (a.maxFrom b).size32 = max a.size32 b.size32 := rfl

@[simp] theorem DualSize.maxFrom_size64 (a b : DualSize) :
    (a.maxFrom b).size64 = max a.size64 b.size64 := rfl

theorem FieldLayoutRank_mod (f : FieldDescriptor) (h : f.number < 2 ^ 29) :
    FieldLayoutRank f % 2 ^ 29 = f.number := by
  unfold FieldLayoutRank
  apply Nat.eq_of_testBit_eq
  intro i
  simp only [Nat.testBit_mod_two_pow, Nat.testBit_or, Nat.testBit_shiftLeft]
  by_cases hi : i < 29
  · have h29 : ¬29 ≤ i := by omega
    simp [hi, h29]
  · have hf : f.number.testBit i = false :=
      Nat.testBit_lt_two_pow (lt_of_lt_of_le h (Nat.pow_le_pow_right (by omega) (by omega)))
    simp [hi, hf]

/-! ### The map-entry path of `ComputeLayout`, computed in closed form -/

theorem computeLayout_map_entry (d : Descriptor) (h : d.map_entry = true) :
    ComputeLayout d = .ok
      { field_offsets := fun n =>
          if n = 2 then some ⟨8, 16⟩ else if n = 1 then some ⟨0, 0⟩ else none
        hasbit_indexes := fun _ => none
        oneof_case_offsets := fun _ => none
        maxalign := ⟨8, 16⟩
        size := ⟨16, 32⟩
        hasbit_count := none
        hasbit_bytes := none
        required_count := none
        placed := [⟨.fieldData 1, ⟨0, 0⟩, ⟨8, 16⟩, ⟨4, 8⟩⟩,
          ⟨.fieldData 2, ⟨8, 16⟩, ⟨8, 16⟩, ⟨4, 8⟩⟩]
        align_log := [4, 8, 4, 8, 8, 16] } := by
  unfold ComputeLayout
  rw [h]
  rfl

/-- Claim C7: for every map-entry message, exactly two fields are placed (the
key at wire number 1 and the value at wire number 2), both with shape size
{8,16} and alignment {4,8} regardless of their declared scalar kinds, giving
key offset {0,0} and value offset {8,16}; no oneof pass runs and no field
receives a presence-bit index. -/
theorem C7_map_entry_uniform (d : Descriptor) (h : d.map_entry = true) :
    ∃ st, ComputeLayout d = .ok st ∧
      st.field_offsets 1 = some ⟨0, 0⟩ ∧
      st.field_offsets 2 = some ⟨8, 16⟩ ∧
      (∀ n, n ≠ 1 → n ≠ 2 → st.field_offsets n = none) ∧
      (∀ n, st.hasbit_indexes n = none) ∧
      (∀ o, st.oneof_case_offsets o = none) ∧
      st.placed = [⟨.fieldData 1, ⟨0, 0⟩, ⟨8, 16⟩, ⟨4, 8⟩⟩,
        ⟨.fieldData 2, ⟨8, 16⟩, ⟨8, 16⟩, ⟨4, 8⟩⟩] := by
  refine ⟨_, computeLayout_map_entry d h, rfl, rfl, ?_, fun _ => rfl, fun _ => rfl, rfl⟩
  intro n h1 h2
  simp [h1, h2]

/-- Witness for C7 at a concrete map-entry message with an int32 key and an
int64 value. -/
theorem C7_witness :
    dMapEntry.map_entry = true ∧
      ∃ st, ComputeLayout dMapEntry = .ok st ∧
        st.field_offsets 1 = some ⟨0, 0⟩ ∧
        st.field_offsets 2 = some ⟨8, 16⟩ ∧
        (∀ n, n ≠ 1 → n ≠ 2 → st.field_offsets n = none) ∧
        (∀ n, st.hasbit_indexes n = none) ∧
        (∀ o, st.oneof_case_offsets o = none) ∧
        st.placed = [⟨.fieldData 1, ⟨0, 0⟩, ⟨8, 16⟩, ⟨4, 8⟩⟩,
          ⟨.fieldData 2, ⟨8, 16⟩, ⟨8, 16⟩, ⟨4, 8⟩⟩] :=
  ⟨rfl, C7_map_entry_uniform dMapEntry rfl⟩

/-- Claim C10: on the map-entry path the constructor writes only the two
field offsets, the running size and the running maximum alignment; the
members `hasbit_count_`, `hasbit_bytes_` and `required_count_` are never
assigned (modelled by `none`), so the public queries read never-initialized
storage and have no guaranteed value. -/
theorem C10_map_entry_uninitialized (d : Descriptor) (h : d.map_entry = true) :
    ∃ st, ComputeLayout d = .ok st ∧
      MessageLayout.hasbit_count st = none ∧
      MessageLayout.hasbit_bytes st = none ∧
      MessageLayout.required_count st = none ∧
      (∀ n, st.hasbit_indexes n = none) ∧
      (∀ o, st.oneof_case_offsets o = none) ∧
      (∀ n, n ≠ 1 → n ≠ 2 → st.field_offsets n = none) := by
  refine ⟨_, computeLayout_map_entry d h, rfl, rfl, rfl, fun _ => rfl, fun _ => rfl, ?_⟩
  intro n h1 h2
  simp [h1, h2]

/-- Witness for C10 at a concrete map-entry message. -/
theorem C10_witness :
    dMapEntry.map_entry = true ∧
      ∃ st, ComputeLayout dMapEntry = .ok st ∧
        MessageLayout.hasbit_count st = none ∧
        MessageLayout.hasbit_bytes st = none ∧
        MessageLayout.required_count st = none ∧
        (∀ n, st.hasbit_indexes n = none) ∧
        (∀ o, st.oneof_case_offsets o = none) ∧
        (∀ n, n ≠ 1 → n ≠ 2 → st.field_offsets n = none) :=
  ⟨rfl, C10_map_entry_uninitialized dMapEntry rfl⟩

/-- Claim C2, failing input: a singular proto2 enum field falls into the
`default:` branch of the `FieldLayoutRank` switch and is assigned bucket 1
(the 64-bit-scalar bucket), not bucket 2 as the specification states for the
32-bit numeric family. -/
theorem C2_enum_rank_evaluation :
    enumSingular.cpp_type = CppType.enum ∧
      enumSingular.is_repeated = false ∧
      rankBucket enumSingular = 1 ∧
      rankBucket enumSingular ≠ 2 ∧
      FieldLayoutRank enumSingular = (1 <<< 29) ||| 7 := by
  decide

/-- Claim C9, failing input: the valid message `d65opt` (65 optional bool
fields, no required fields) completes without the usage-limit failure, yet
its 9-byte presence region drives the running maximum alignment to {9,9},
and the final `AlignUp` of the total size passes 9 — not a power of two —
to `Align`, firing the `ABSL_ASSERT(IsPowerOfTwo(align))`. -/
theorem C9_align_assert_fires :
    WF d65opt ∧
      (layoutOf d65opt).map (fun st => (st.maxalign.size32, st.maxalign.size64)) =
        some (9, 9) ∧
      (layoutOf d65opt).map (fun st => st.align_log.all IsPowerOfTwo) = some false ∧
      (layoutOf d65opt).map (fun st => st.align_log.getLast?) = some (some 9) ∧
      IsPowerOfTwo 9 = false := by
  exact ⟨by decide, by decide, by decide, by decide, by decide⟩

/-- Claim C1, counterexample: on the 64-required-field message `M`, the
failure diagnostic carries the fully-qualified name of the offending *field*
(`M.f64`), not of the offending message (`M`). -/
theorem C1_counterexample :
    errorNameOf d64req = some "M.f64" ∧
      d64req.full_name = "M" ∧
      errorNameOf d64req ≠ some d64req.full_name := by
  exact ⟨by decide, rfl, by decide⟩

/-- Claim C3, counterexample: on the valid message `d65opt` the final total
size (82 under the 32-bit width) is not a multiple of the running maximum
alignment (9): the claimed multiple-of property fails when the running
maximum alignment is not a power of two. -/
theorem C3_counterexample :
    WF d65opt ∧
      (layoutOf d65opt).map
        (fun st => (st.size.size32, st.maxalign.size32, st.size.size32 % st.maxalign.size32)) =
        some (82, 9, 1) := by
  exact ⟨by decide, by decide⟩

/-! ### The bump-allocate step `Place` -/

@[simp] theorem Place_offset32 (st : LayoutState) (tag : RegionTag) (sa : SizeAndAlign) :
    (Place st tag sa).1.size32 = Align st.size.size32 sa.align.size32 := rfl

@[simp] theorem Place_offset64 (st : LayoutState) (tag : RegionTag) (sa : SizeAndAlign) :
    (Place st tag sa).1.size64 = Align st.size.size64 sa.align.size64 := rfl

@[simp] theorem Place_size32 (st : LayoutState) (tag : RegionTag) (sa : SizeAndAlign) :
    (Place st tag sa).2.size.size32 = Align st.size.size32 sa.align.size32 + sa.size.size32 := rfl

@[simp] theorem Place_size64 (st : LayoutState) (tag : RegionTag) (sa : SizeAndAlign) :
    (Place st tag sa).2.size.size64 = Align st.size.size64 sa.align.size64 + sa.size.size64 := rfl

@[simp] theorem Place_maxalign32 (st : LayoutState) (tag : RegionTag) (sa : SizeAndAlign) :
    (Place st tag sa).2.maxalign.size32 = max st.maxalign.size32 sa.size.size32 := rfl

@[simp] theorem Place_maxalign64 (st : LayoutState) (tag : RegionTag) (sa : SizeAndAlign) :
    (Place st tag sa).2.maxalign.size64 = max st.maxalign.size64 sa.size.size64 := rfl

@[simp] theorem Place_placed (st : LayoutState) (tag : RegionTag) (sa : SizeAndAlign) :
    (Place st tag sa).2.placed =
      st.placed ++ [⟨tag, st.size.alignUp sa.align, sa.size, sa.align⟩] := rfl

@[simp] theorem Place_field_offsets (st : LayoutState) (tag : RegionTag) (sa : SizeAndAlign) :
    (Place st tag sa).2.field_offsets = st.field_offsets := rfl

@[simp] theorem Place_hasbit_indexes (st : LayoutState) (tag : RegionTag) (sa : SizeAndAlign) :
    (Place st tag sa).2.hasbit_indexes = st.hasbit_indexes := rfl

@[simp] theorem Place_oneof_case_offsets (st : LayoutState) (tag : RegionTag) (sa : SizeAndAlign) :
    (Place st tag sa).2.oneof_case_offsets = st.oneof_case_offsets := rfl

@[simp] theorem Place_hasbit_count (st : LayoutState) (tag : RegionTag) (sa : SizeAndAlign) :
    (Place st tag sa).2.hasbit_count = st.hasbit_count := rfl

@[simp] theorem Place_hasbit_bytes (st : LayoutState) (tag : RegionTag) (sa : SizeAndAlign) :
    (Place st tag sa).2.hasbit_bytes = st.hasbit_bytes := rfl

@[simp] theorem Place_required_count (st : LayoutState) (tag : RegionTag) (sa : SizeAndAlign) :
    (Place st tag sa).2.required_count = st.required_count := rfl

theorem SizeOfField_alignPos (f : FieldDescriptor) : alignPos (SizeOfField f) := by
  by_cases hr : f.is_repeated
  · simp [SizeOfField, hr, alignPos]
  · cases h : f.cpp_type <;> simp [SizeOfField, SizeOfUnwrapped, hr, h, alignPos]

theorem Place_size_mono (st : LayoutState) (tag : RegionTag) (sa : SizeAndAlign)
    (h : alignPos sa) :
    st.size.size32 ≤ (Place st tag sa).2.size.size32 ∧
      st.size.size64 ≤ (Place st tag sa).2.size.size64 := by
  obtain ⟨h1, h2⟩ := h
  have g1 := le_Align st.size.size32 h1
  have g2 := le_Align st.size.size64 h2
  constructor <;> simp <;> omega

theorem Place_offset_lower (st : LayoutState) (tag : RegionTag) (sa : SizeAndAlign)
    (h : alignPos sa) :
    st.size.size32 ≤ (Place st tag sa).1.size32 ∧
      st.size.size64 ≤ (Place st tag sa).1.size64 := by
  obtain ⟨h1, h2⟩ := h
  exact ⟨le_Align st.size.size32 h1, le_Align st.size.size64 h2⟩

theorem Place_stinv (st : LayoutState) (tag : RegionTag) (sa : SizeAndAlign)
    (h : StInv st) (ha : alignPos sa) : StInv (Place st tag sa).2 := by
  obtain ⟨hb, hsep, hm1, hm2⟩ := h
  obtain ⟨ha1, ha2⟩ := ha
  have g1 := le_Align st.size.size32 ha1
  have g2 := le_Align st.size.size64 ha2
  refine ⟨?_, ?_, ?_, ?_⟩
  · intro r hr
    rw [Place_placed] at hr
    rcases List.mem_append.mp hr with hold | hnew
    · have := hb r hold
      constructor <;> simp <;> omega
    · have : r = ⟨tag, st.size.alignUp sa.align, sa.size, sa.align⟩ :=
        List.mem_singleton.mp hnew
      subst this
      constructor <;> simp
  · unfold Separated at hsep ⊢
    rw [Place_placed, List.pairwise_append]
    refine ⟨hsep, by simp, ?_⟩
    intro a hha b hhb
    have : b = ⟨tag, st.size.alignUp sa.align, sa.size, sa.align⟩ :=
      List.mem_singleton.mp hhb
    subst this
    have := hb a hha
    constructor <;> simp <;> omega
  · simp; omega
  · simp; omega

theorem finalAlign_size32 (st : LayoutState) :
    (finalAlign st).size.size32 = Align st.size.size32 st.maxalign.size32 := rfl

theorem finalAlign_size64 (st : LayoutState) :
    (finalAlign st).size.size64 = Align st.size.size64 st.maxalign.size64 := rfl

@[simp] theorem finalAlign_placed (st : LayoutState) :
    (finalAlign st).placed = st.placed := rfl

@[simp] theorem finalAlign_maxalign (st : LayoutState) :
    (finalAlign st).maxalign = st.maxalign := rfl

@[simp] theorem finalAlign_field_offsets (st : LayoutState) :
    (finalAlign st).field_offsets = st.field_offsets := rfl

@[simp] theorem finalAlign_hasbit_indexes (st : LayoutState) :
    (finalAlign st).hasbit_indexes = st.hasbit_indexes := rfl

@[simp] theorem finalAlign_oneof_case_offsets (st : LayoutState) :
    (finalAlign st).oneof_case_offsets = st.oneof_case_offsets := rfl

@[simp] theorem finalAlign_hasbit_count (st : LayoutState) :
    (finalAlign st).hasbit_count = st.hasbit_count := rfl

@[simp] theorem finalAlign_hasbit_bytes (st : LayoutState) :
    (finalAlign st).hasbit_bytes = st.hasbit_bytes := rfl

@[simp] theorem finalAlign_required_count (st : LayoutState) :
    (finalAlign st).required_count = st.required_count := rfl

theorem finalAlign_bounded (st : LayoutState) (h : StInv st) : Bounded (finalAlign st) := by
  obtain ⟨hb, _, hm1, hm2⟩ := h
  intro r hr
  rw [finalAlign_placed] at hr
  have := hb r hr
  have g1 := le_Align st.size.size32 hm1
  have g2 := le_Align st.size.size64 hm2
  rw [finalAlign_size32, finalAlign_size64]
  omega

/-! ### The hasbit-assignment loop -/

theorem placeHasbits_frame (me : Bool) (l : List FieldDescriptor) :
    ∀ (st st' : LayoutState), placeHasbits me l st = .ok st' →
      st'.size = st.size ∧ st'.maxalign = st.maxalign ∧ st'.placed = st.placed ∧
        st'.field_offsets = st.field_offsets ∧
        st'.oneof_case_offsets = st.oneof_case_offsets ∧
        st'.hasbit_bytes = st.hasbit_bytes ∧ st'.align_log = st.align_log := by
  induction l with
  | nil =>
    intro st st' h
    simp only [placeHasbits, Except.ok.injEq] at h
    subst h
    exact ⟨rfl, rfl, rfl, rfl, rfl, rfl, rfl⟩
  | cons f rest ih =>
    intro st st' h
    simp only [placeHasbits] at h
    by_cases hh : HasHasbit me f
    · rw [if_pos hh] at h
      by_cases hreq : f.is_required
      · rw [if_pos hreq] at h
        by_cases hlim : 63 < st.hasbit_count.getD 0 + 1
        · rw [if_pos hlim] at h
          exact absurd h (by simp)
        · rw [if_neg hlim] at h
          have hframe := ih _ _ h
          exact hframe
      · rw [if_neg hreq] at h
        have hframe := ih _ _ h
        exact hframe
    · rw [if_neg hh] at h
      have hframe := ih _ _ h
      exact hframe

theorem placeHasbits_append (me : Bool) (l1 l2 : List FieldDescriptor) :
    ∀ st, placeHasbits me (l1 ++ l2) st =
      match placeHasbits me l1 st with
      | .error e => .error e
      | .ok st1 => placeHasbits me l2 st1 := by
  induction l1 with
  | nil => intro st; simp [placeHasbits]
  | cons f rest ih =>
    intro st
    simp only [List.cons_append, placeHasbits]
    by_cases hh : HasHasbit me f
    · rw [if_pos hh, if_pos hh]
      by_cases hreq : f.is_required
      · rw [if_pos hreq, if_pos hreq]
        by_cases hlim : 63 < st.hasbit_count.getD 0 + 1
        · rw [if_pos hlim, if_pos hlim]
        · rw [if_neg hlim, if_neg hlim]
          exact ih _
      · rw [if_neg hreq, if_neg hreq]
        exact ih _
    · rw [if_neg hh, if_neg hh]
      exact ih _

theorem placeHasbits_ok_count (me : Bool) (l : List FieldDescriptor) :
    ∀ (st st' : LayoutState) (c : Nat), st.hasbit_count = some c →
      placeHasbits me l st = .ok st' →
      st'.hasbit_count = some (c + (hasbitFields me l).length) := by
  induction l with
  | nil =>
    intro st st' c hc h
    simp only [placeHasbits, Except.ok.injEq] at h
    subst h
    simp [hasbitFields, hc]
  | cons f rest ih =>
    intro st st' c hc h
    simp only [placeHasbits] at h
    by_cases hh : HasHasbit me f
    · rw [if_pos hh] at h
      rw [hc] at h
      simp only [Option.getD_some] at h
      by_cases hreq : f.is_required
      · rw [if_pos hreq] at h
        by_cases hlim : 63 < c + 1
        · rw [if_pos hlim] at h
          exact absurd h (by simp)
        · rw [if_neg hlim] at h
          have := ih _ _ (c + 1) rfl h
          rw [this]
          simp only [hasbitFields, List.filter_cons, hh]
          simp [hasbitFields] at *
          omega
      · rw [if_neg hreq] at h
        have := ih _ _ (c + 1) rfl h
        rw [this]
        simp only [hasbitFields, List.filter_cons, hh]
        simp [hasbitFields] at *
        omega
    · rw [if_neg hh] at h
      have := ih _ _ c hc h
      rw [this]
      simp [hasbitFields, List.filter_cons, hh]

theorem placeHasbits_untouched (me : Bool) (l : List FieldDescriptor) :
    ∀ (st st' : LayoutState) (n : Nat),
      placeHasbits me l st = .ok st' →
      n ∉ (hasbitFields me l).map (fun f => f.number) →
      st'.hasbit_indexes n = st.hasbit_indexes n := by
  induction l with
  | nil =>
    intro st st' n h _
    simp only [placeHasbits, Except.ok.injEq] at h
    subst h
    rfl
  | cons f rest ih =>
    intro st st' n h hn
    simp only [placeHasbits] at h
    by_cases hh : HasHasbit me f
    · have hfc : hasbitFields me (f :: rest) = f :: hasbitFields me rest := by
        simp [hasbitFields, List.filter_cons, hh]
      rw [hfc] at hn
      simp only [List.map_cons, List.mem_cons, not_or] at hn
      obtain ⟨hn1, hn2⟩ := hn
      rw [if_pos hh] at h
      by_cases hreq : f.is_required
      · rw [if_pos hreq] at h
        by_cases hlim : 63 < st.hasbit_count.getD 0 + 1
        · rw [if_pos hlim] at h
          exact absurd h (by simp)
        · rw [if_neg hlim] at h
          have hu := ih _ _ n h (by simpa using hn2)
          rw [hu]
          show (if n = f.number then _ else st.hasbit_indexes n) = st.hasbit_indexes n
          rw [if_neg hn1]
      · rw [if_neg hreq] at h
        have hu := ih _ _ n h (by simpa using hn2)
        rw [hu]
        show (if n = f.number then _ else st.hasbit_indexes n) = st.hasbit_indexes n
        rw [if_neg hn1]
    · have hfc : hasbitFields me (f :: rest) = hasbitFields me rest := by
        simp [hasbitFields, List.filter_cons, hh]
      rw [hfc] at hn
      rw [if_neg hh] at h
      exact ih _ _ n h hn

theorem placeHasbits_ok_indexes (me : Bool) (l : List FieldDescriptor) :
    ∀ (st st' : LayoutState) (c : Nat),
      (l.map (fun f => f.number)).Nodup →
      st.hasbit_count = some c →
      placeHasbits me l st = .ok st' →
      ∀ (i : Nat) (g : FieldDescriptor), (hasbitFields me l)[i]? = some g →
        st'.hasbit_indexes g.number = some (c + i + 1) := by
  induction l with
  | nil =>
    intro st st' c _ _ _ i g hg
    simp [hasbitFields] at hg
  | cons f rest ih =>
    intro st st' c hnd hc h i g hg
    have hndr : (rest.map (fun f => f.number)).Nodup := by
      simpa using hnd.of_cons
    have hfn : f.number ∉ rest.map (fun f => f.number) := by
      simp only [List.map_cons] at hnd
      exact (List.nodup_cons.mp hnd).1
    simp only [placeHasbits] at h
    by_cases hh : HasHasbit me f
    · have hfc : hasbitFields me (f :: rest) = f :: hasbitFields me rest := by
        simp [hasbitFields, List.filter_cons, hh]
      rw [hfc] at hg
      rw [if_pos hh, hc] at h
      simp only [Option.getD_some] at h
      by_cases hreq : f.is_required
      · rw [if_pos hreq] at h
        by_cases hlim : 63 < c + 1
        · rw [if_pos hlim] at h
          exact absurd h (by simp)
        · rw [if_neg hlim] at h
          cases i with
          | zero =>
            simp only [List.getElem?_cons_zero, Option.some.injEq] at hg
            subst hg
            have hnot : f.number ∉ (hasbitFields me rest).map (fun f => f.number) := by
              intro hmem
              exact hfn (((List.filter_sublist rest).map (fun f => f.number)).subset
                (by simpa [hasbitFields] using hmem))
            have hu := placeHasbits_untouched me rest _ _ f.number h hnot
            rw [hu]
            show (if f.number = f.number then some (c + 1) else _) = _
            rw [if_pos rfl]
          | succ j =>
            simp only [List.getElem?_cons_succ] at hg
            have hx := ih _ _ (c + 1) hndr rfl h j g hg
            rw [show c + (j + 1) + 1 = c + 1 + j + 1 from by omega]
            exact hx
      · rw [if_neg hreq] at h
        cases i with
        | zero =>
          simp only [List.getElem?_cons_zero, Option.some.injEq] at hg
          subst hg
          have hnot : f.number ∉ (hasbitFields me rest).map (fun f => f.number) := by
            intro hmem
            exact hfn (((List.filter_sublist rest).map (fun f => f.number)).subset
              (by simpa [hasbitFields] using hmem))
          have hu := placeHasbits_untouched me rest _ _ f.number h hnot
          rw [hu]
          show (if f.number = f.number then some (c + 1) else _) = _
          rw [if_pos rfl]
        | succ j =>
          simp only [List.getElem?_cons_succ] at hg
          have hx := ih _ _ (c + 1) hndr rfl h j g hg
          rw [show c + (j + 1) + 1 = c + 1 + j + 1 from by omega]
          exact hx
    · have hfc : hasbitFields me (f :: rest) = hasbitFields me rest := by
        simp [hasbitFields, List.filter_cons, hh]
      rw [hfc] at hg
      rw [if_neg hh] at h
      exact ih _ _ c hndr hc h i g hg

theorem placeHasbits_error_mem (me : Bool) (l : List FieldDescriptor) :
    ∀ (st : LayoutState) (e : LayoutFailure),
      placeHasbits me l st = .error e →
      ∃ f ∈ l, HasHasbit me f = true ∧ f.is_required = true ∧
        e = .tooManyRequired f.full_name := by
  induction l with
  | nil =>
    intro st e h
    exact absurd h (by simp [placeHasbits])
  | cons f rest ih =>
    intro st e h
    simp only [placeHasbits] at h
    by_cases hh : HasHasbit me f
    · rw [if_pos hh] at h
      by_cases hreq : f.is_required
      · rw [if_pos hreq] at h
        by_cases hlim : 63 < st.hasbit_count.getD 0 + 1
        · rw [if_pos hlim] at h
          simp only [Except.error.injEq] at h
          exact ⟨f, List.mem_cons_self f rest, hh, hreq, h.symm⟩
        · rw [if_neg hlim] at h
          obtain ⟨g, hg, h1, h2, h3⟩ := ih _ _ h
          exact ⟨g, List.mem_cons_of_mem f hg, h1, h2, h3⟩
      · rw [if_neg hreq] at h
        obtain ⟨g, hg, h1, h2, h3⟩ := ih _ _ h
        exact ⟨g, List.mem_cons_of_mem f hg, h1, h2, h3⟩
    · rw [if_neg hh] at h
      obtain ⟨g, hg, h1, h2, h3⟩ := ih _ _ h
      exact ⟨g, List.mem_cons_of_mem f hg, h1, h2, h3⟩

theorem placeHasbits_noreq_ok (me : Bool) (l : List FieldDescriptor)
    (hall : ∀ f ∈ l, f.is_required = false) :
    ∀ st, ∃ st', placeHasbits me l st = .ok st' := by
  induction l with
  | nil => exact fun st => ⟨st, rfl⟩
  | cons f rest ih =>
    intro st
    have hf : f.is_required = false := hall f (List.mem_cons_self f rest)
    have htail : ∀ g ∈ rest, g.is_required = false :=
      fun g hg => hall g (List.mem_cons_of_mem f hg)
    simp only [placeHasbits]
    by_cases hh : HasHasbit me f
    · rw [if_pos hh, if_neg (by simp [hf])]
      exact ih htail _
    · rw [if_neg hh]
      exact ih htail _

theorem placeHasbits_allreq_error_iff (me : Bool) (l : List FieldDescriptor)
    (hall : ∀ f ∈ l, f.is_required = true) :
    ∀ (st : LayoutState) (c : Nat), st.hasbit_count = some c →
      ((∃ e, placeHasbits me l st = .error e) ↔
        1 ≤ (hasbitFields me l).length ∧ 63 < c + (hasbitFields me l).length) := by
  induction l with
  | nil =>
    intro st c _
    simp [placeHasbits, hasbitFields]
  | cons f rest ih =>
    intro st c hc
    have hf : f.is_required = true := hall f (List.mem_cons_self f rest)
    have htail : ∀ g ∈ rest, g.is_required = true :=
      fun g hg => hall g (List.mem_cons_of_mem f hg)
    simp only [placeHasbits]
    by_cases hh : HasHasbit me f
    · have hfc : hasbitFields me (f :: rest) = f :: hasbitFields me rest := by
        simp [hasbitFields, List.filter_cons, hh]
      rw [if_pos hh, hc]
      simp only [Option.getD_some]
      rw [if_pos hf]
      by_cases hlim : 63 < c + 1
      · rw [if_pos hlim]
        constructor
        · intro _
          rw [hfc]
          simp only [List.length_cons]
          omega
        · intro _
          exact ⟨_, rfl⟩
      · rw [if_neg hlim]
        rw [ih htail _ (c + 1) rfl, hfc]
        simp only [List.length_cons]
        omega
    · have hfc : hasbitFields me (f :: rest) = hasbitFields me rest := by
        simp [hasbitFields, List.filter_cons, hh]
      rw [if_neg hh, ih htail _ c hc, hfc]

theorem sorted_required_split (l : List FieldDescriptor) (hs : l.Sorted hotnessLE) :
    ∃ lreq lopt, l = lreq ++ lopt ∧ (∀ f ∈ lreq, f.is_required = true) ∧
      ∀ f ∈ lopt, f.is_required = false := by
  induction l with
  | nil => exact ⟨[], [], rfl, by simp, by simp⟩
  | cons f rest ih =>
    obtain ⟨lreq, lopt, heq, hreq, hopt⟩ := ih hs.of_cons
    by_cases hf : f.is_required
    · refine ⟨f :: lreq, lopt, by rw [heq, List.cons_append], ?_, hopt⟩
      intro g hg
      rcases List.mem_cons.mp hg with rfl | hg'
      · exact hf
      · exact hreq g hg'
    · refine ⟨[], f :: rest, rfl, by simp, ?_⟩
      intro g hg
      rcases List.mem_cons.mp hg with rfl | hg'
      · exact Bool.eq_false_iff.mpr hf
      · have hle := (List.sorted_cons.mp hs).1 g hg'
        unfold hotnessLE at hle
        by_cases hg2 : g.is_required
        · exfalso
          rw [if_neg hf, if_pos hg2] at hle
          rcases hle with h1 | ⟨h1, _⟩ <;> omega
        · exact Bool.eq_false_iff.mpr hg2

/-! ### The non-oneof field placement loop -/

theorem placeFieldList_frame (l : List FieldDescriptor) :
    ∀ st : LayoutState,
      (placeFieldList l st).hasbit_indexes = st.hasbit_indexes ∧
        (placeFieldList l st).oneof_case_offsets = st.oneof_case_offsets ∧
        (placeFieldList l st).hasbit_count = st.hasbit_count ∧
        (placeFieldList l st).hasbit_bytes = st.hasbit_bytes ∧
        (placeFieldList l st).required_count = st.required_count := by
  induction l with
  | nil => exact fun st => ⟨rfl, rfl, rfl, rfl, rfl⟩
  | cons f rest ih =>
    intro st
    have hstep := ih { (Place st (.fieldData f.number) (SizeOfField f)).2 with
      field_offsets := fun n =>
        if n = f.number then some (Place st (.fieldData f.number) (SizeOfField f)).1
        else (Place st (.fieldData f.number) (SizeOfField f)).2.field_offsets n }
    exact hstep

theorem placeFieldList_size_mono (l : List FieldDescriptor) :
    ∀ st : LayoutState,
      st.size.size32 ≤ (placeFieldList l st).size.size32 ∧
        st.size.size64 ≤ (placeFieldList l st).size.size64 := by
  induction l with
  | nil => exact fun st => ⟨le_refl _, le_refl _⟩
  | cons f rest ih =>
    intro st
    obtain ⟨ha1, ha2⟩ := SizeOfField_alignPos f
    have g1 := le_Align st.size.size32 ha1
    have g2 := le_Align st.size.size64 ha2
    have hstep := ih { (Place st (.fieldData f.number) (SizeOfField f)).2 with
      field_offsets := fun n =>
        if n = f.number then some (Place st (.fieldData f.number) (SizeOfField f)).1
        else (Place st (.fieldData f.number) (SizeOfField f)).2.field_offsets n }
    constructor
    · calc st.size.size32 ≤ Align st.size.size32 (SizeOfField f).align.size32 +
            (SizeOfField f).size.size32 := by omega
        _ ≤ _ := hstep.1
    · calc st.size.size64 ≤ Align st.size.size64 (SizeOfField f).align.size64 +
            (SizeOfField f).size.size64 := by omega
        _ ≤ _ := hstep.2

theorem placeFieldList_maxalign_mono (l : List FieldDescriptor) :
    ∀ st : LayoutState,
      st.maxalign.size32 ≤ (placeFieldList l st).maxalign.size32 ∧
        st.maxalign.size64 ≤ (placeFieldList l st).maxalign.size64 := by
  induction l with
  | nil => exact fun st => ⟨le_refl _, le_refl _⟩
  | cons f rest ih =>
    intro st
    have hstep := ih { (Place st (.fieldData f.number) (SizeOfField f)).2 with
      field_offsets := fun n =>
        if n = f.number then some (Place st (.fieldData f.number) (SizeOfField f)).1
        else (Place st (.fieldData f.number) (SizeOfField f)).2.field_offsets n }
    constructor
    · exact le_trans (le_max_left _ _) hstep.1
    · exact le_trans (le_max_left _ _) hstep.2

theorem placeFieldList_stinv (l : List FieldDescriptor) :
    ∀ st : LayoutState, StInv st → StInv (placeFieldList l st) := by
  induction l with
  | nil => exact fun _ h => h
  | cons f rest ih =>
    intro st h
    have h2 := Place_stinv st (.fieldData f.number) (SizeOfField f) h (SizeOfField_alignPos f)
    have h3 : StInv { (Place st (.fieldData f.number) (SizeOfField f)).2 with
        field_offsets := fun n =>
          if n = f.number then some (Place st (.fieldData f.number) (SizeOfField f)).1
          else (Place st (.fieldData f.number) (SizeOfField f)).2.field_offsets n } := h2
    exact ih _ h3

theorem placeFieldList_untouched (l : List FieldDescriptor) :
    ∀ (st : LayoutState) (n : Nat), n ∉ l.map (fun f => f.number) →
      (placeFieldList l st).field_offsets n = st.field_offsets n := by
  induction l with
  | nil => exact fun _ _ _ => rfl
  | cons f rest ih =>
    intro st n hn
    simp only [List.map_cons, List.mem_cons, not_or] at hn
    obtain ⟨hn1, hn2⟩ := hn
    have hstep := ih { (Place st (.fieldData f.number) (SizeOfField f)).2 with
      field_offsets := fun n =>
        if n = f.number then some (Place st (.fieldData f.number) (SizeOfField f)).1
        else (Place st (.fieldData f.number) (SizeOfField f)).2.field_offsets n } n
      (by simpa using hn2)
    rw [show placeFieldList (f :: rest) st = placeFieldList rest
      { (Place st (.fieldData f.number) (SizeOfField f)).2 with
        field_offsets := fun n =>
          if n = f.number then some (Place st (.fieldData f.number) (SizeOfField f)).1
          else (Place st (.fieldData f.number) (SizeOfField f)).2.field_offsets n } from rfl]
    rw [hstep]
    show (if n = f.number then _ else st.field_offsets n) = st.field_offsets n
    rw [if_neg hn1]

theorem placeFieldList_placed_prefix (l : List FieldDescriptor) :
    ∀ st : LayoutState, ∃ rs, (placeFieldList l st).placed = st.placed ++ rs := by
  induction l with
  | nil => exact fun st => ⟨[], by simp [placeFieldList]⟩
  | cons f rest ih =>
    intro st
    obtain ⟨rs, hrs⟩ := ih { (Place st (.fieldData f.number) (SizeOfField f)).2 with
      field_offsets := fun n =>
        if n = f.number then some (Place st (.fieldData f.number) (SizeOfField f)).1
        else (Place st (.fieldData f.number) (SizeOfField f)).2.field_offsets n }
    refine ⟨[⟨.fieldData f.number, st.size.alignUp (SizeOfField f).align,
      (SizeOfField f).size, (SizeOfField f).align⟩] ++ rs, ?_⟩
    rw [show placeFieldList (f :: rest) st = placeFieldList rest
      { (Place st (.fieldData f.number) (SizeOfField f)).2 with
        field_offsets := fun n =>
          if n = f.number then some (Place st (.fieldData f.number) (SizeOfField f)).1
          else (Place st (.fieldData f.number) (SizeOfField f)).2.field_offsets n } from rfl]
    rw [hrs]
    simp [Place]

theorem placeFieldList_spec (l : List FieldDescriptor) :
    ∀ st : LayoutState, (l.map (fun f => f.number)).Nodup →
      ∃ offMap : Nat → DualSize,
        (∀ f ∈ l,
          (placeFieldList l st).field_offsets f.number = some (offMap f.number) ∧
            st.size.size32 ≤ (offMap f.number).size32 ∧
            st.size.size64 ≤ (offMap f.number).size64 ∧
            (offMap f.number).size32 + (SizeOfField f).size.size32 ≤
              (placeFieldList l st).size.size32 ∧
            (offMap f.number).size64 + (SizeOfField f).size.size64 ≤
              (placeFieldList l st).size.size64) ∧
          l.Pairwise (fun f g =>
            (offMap f.number).size32 + (SizeOfField f).size.size32 ≤ (offMap g.number).size32 ∧
              (offMap f.number).size64 + (SizeOfField f).size.size64 ≤ (offMap g.number).size64) := by
  induction l with
  | nil => exact fun st _ => ⟨fun _ => ⟨0, 0⟩, by simp, by simp⟩
  | cons f rest ih =>
    intro st hnd
    have hndr : (rest.map (fun f => f.number)).Nodup := by simpa using hnd.of_cons
    have hfn : f.number ∉ rest.map (fun f => f.number) := by
      simp only [List.map_cons] at hnd
      exact (List.nodup_cons.mp hnd).1
    set B := { (Place st (.fieldData f.number) (SizeOfField f)).2 with
      field_offsets := fun n =>
        if n = f.number then some (Place st (.fieldData f.number) (SizeOfField f)).1
        else (Place st (.fieldData f.number) (SizeOfField f)).2.field_offsets n } with hB
    obtain ⟨offMap', hmem, hpw⟩ := ih B hndr
    obtain ⟨ha1, ha2⟩ := SizeOfField_alignPos f
    have g1 := le_Align st.size.size32 ha1
    have g2 := le_Align st.size.size64 ha2
    have hmono := placeFieldList_size_mono rest B
    have hBsize32 : B.size.size32 =
        Align st.size.size32 (SizeOfField f).align.size32 + (SizeOfField f).size.size32 := rfl
    have hBsize64 : B.size.size64 =
        Align st.size.size64 (SizeOfField f).align.size64 + (SizeOfField f).size.size64 := rfl
    have hres : placeFieldList (f :: rest) st = placeFieldList rest B := rfl
    have hoffB : B.field_offsets f.number = some (st.size.alignUp (SizeOfField f).align) := by
      rw [hB]
      show (if f.number = f.number then _ else _) = _
      rw [if_pos rfl]
      rfl
    refine ⟨Function.update offMap' f.number (st.size.alignUp (SizeOfField f).align), ?_, ?_⟩
    · intro g hg
      rcases List.mem_cons.mp hg with rfl | hg'
      · rw [Function.update_same, hres]
        have huntouched := placeFieldList_untouched rest B g.number (by simpa using hfn)
        rw [huntouched, hoffB]
        refine ⟨rfl, g1, g2, ?_, ?_⟩
        · calc (st.size.alignUp (SizeOfField g).align).size32 + (SizeOfField g).size.size32 =
              B.size.size32 := hBsize32.symm
            _ ≤ (placeFieldList rest B).size.size32 := hmono.1
        · calc (st.size.alignUp (SizeOfField g).align).size64 + (SizeOfField g).size.size64 =
              B.size.size64 := hBsize64.symm
            _ ≤ (placeFieldList rest B).size.size64 := hmono.2
      · have hgf : g.number ≠ f.number := by
          intro hcontra
          exact hfn (hcontra ▸ List.mem_map_of_mem (fun f => f.number) hg')
        rw [Function.update_noteq hgf, hres]
        obtain ⟨hoff, hlo32, hlo64, hhi32, hhi64⟩ := hmem g hg'
        refine ⟨hoff, ?_, ?_, hhi32, hhi64⟩
        · calc st.size.size32 ≤ B.size.size32 := by rw [hBsize32]; omega
            _ ≤ (offMap' g.number).size32 := hlo32
        · calc st.size.size64 ≤ B.size.size64 := by rw [hBsize64]; omega
            _ ≤ (offMap' g.number).size64 := hlo64
    · rw [List.pairwise_cons]
      constructor
      · intro g hg'
        have hgf : g.number ≠ f.number := by
          intro hcontra
          exact hfn (hcontra ▸ List.mem_map_of_mem (fun f => f.number) hg')
        rw [Function.update_same, Function.update_noteq hgf]
        obtain ⟨_, hlo32, hlo64, _, _⟩ := hmem g hg'
        constructor
        · calc (st.size.alignUp (SizeOfField f).align).size32 + (SizeOfField f).size.size32 =
              B.size.size32 := hBsize32.symm
            _ ≤ (offMap' g.number).size32 := hlo32
        · calc (st.size.alignUp (SizeOfField f).align).size64 + (SizeOfField f).size.size64 =
              B.size.size64 := hBsize64.symm
            _ ≤ (offMap' g.number).size64 := hlo64
      · refine hpw.imp_of_mem ?_
        intro a b ha hb hab
        have haf : a.number ≠ f.number := by
          intro hcontra
          exact hfn (hcontra ▸ List.mem_map_of_mem (fun f => f.number) ha)
        have hbf : b.number ≠ f.number := by
          intro hcontra
          exact hfn (hcontra ▸ List.mem_map_of_mem (fun f => f.number) hb)
        rw [Function.update_noteq haf, Function.update_noteq hbf]
        exact hab

/-! ### The oneof placement loop -/

@[simp] theorem SizeAndAlign.maxFrom_align32 (a b : SizeAndAlign) :
    (a.maxFrom b).align.size32 = max a.align.size32 b.align.size32 := rfl

@[simp] theorem SizeAndAlign.maxFrom_align64 (a b : SizeAndAlign) :
    (a.maxFrom b).align.size64 = max a.align.size64 b.align.size64 := rfl

@[simp] theorem SizeAndAlign.maxFrom_sz32 (a b : SizeAndAlign) :
    (a.maxFrom b).size.size32 = max a.size.size32 b.size.size32 := rfl

@[simp] theorem SizeAndAlign.maxFrom_sz64 (a b : SizeAndAlign) :
    (a.maxFrom b).size.size64 = max a.size.size64 b.size.size64 := rfl

theorem foldl_maxFrom_align_mono (l : List FieldDescriptor) :
    ∀ acc : SizeAndAlign,
      acc.align.size32 ≤ (l.foldl (fun a f => a.maxFrom (SizeOfField f)) acc).align.size32 ∧
        acc.align.size64 ≤ (l.foldl (fun a f => a.maxFrom (SizeOfField f)) acc).align.size64 := by
  induction l with
  | nil => exact fun acc => ⟨le_refl _, le_refl _⟩
  | cons f rest ih =>
    intro acc
    have hstep := ih (acc.maxFrom (SizeOfField f))
    constructor
    · exact le_trans (by simp) hstep.1
    · exact le_trans (by simp) hstep.2

theorem oneofMaxSize_alignPos (members : List FieldDescriptor) (h : members ≠ []) :
    alignPos (oneofMaxSize members) := by
  match members, h with
  | f :: rest, _ =>
    obtain ⟨ha1, ha2⟩ := SizeOfField_alignPos f
    have hstep := foldl_maxFrom_align_mono rest
      ((⟨⟨0, 0⟩, ⟨0, 0⟩⟩ : SizeAndAlign).maxFrom (SizeOfField f))
    constructor
    · exact le_trans (by simp; omega) hstep.1
    · exact le_trans (by simp; omega) hstep.2

theorem setMemberOffsets_lookup (members : List FieldDescriptor) (data : DualSize) :
    ∀ (m : Nat → Option DualSize) (n : Nat),
      setMemberOffsets members data m n =
        if n ∈ members.map (fun f => f.number) then some data else m n := by
  induction members with
  | nil => intro m n; simp [setMemberOffsets]
  | cons f rest ih =>
    intro m n
    have hstep := ih (fun k => if k = f.number then some data else m k) n
    rw [show setMemberOffsets (f :: rest) data m =
      setMemberOffsets rest data (fun k => if k = f.number then some data else m k) from rfl]
    rw [hstep]
    by_cases hr : n ∈ rest.map (fun f => f.number)
    · rw [if_pos hr, if_pos (by simp [hr])]
    · rw [if_neg hr]
      by_cases hf : n = f.number
      · rw [if_pos hf, if_pos (by simp [hf])]
      · rw [if_neg hf, if_neg (by simp [hf, hr])]

theorem placeOneofList_frame (d : Descriptor) (l : List String) :
    ∀ st : LayoutState,
      (placeOneofList d l st).hasbit_indexes = st.hasbit_indexes ∧
        (placeOneofList d l st).hasbit_count = st.hasbit_count ∧
        (placeOneofList d l st).hasbit_bytes = st.hasbit_bytes ∧
        (placeOneofList d l st).required_count = st.required_count := by
  induction l with
  | nil => exact fun st => ⟨rfl, rfl, rfl, rfl⟩
  | cons o rest ih =>
    intro st
    exact ih _

theorem placeOneofList_size_mono (d : Descriptor) (l : List String) :
    ∀ st : LayoutState, (∀ o ∈ l, oneofFieldsOf d o ≠ []) →
      st.size.size32 ≤ (placeOneofList d l st).size.size32 ∧
        st.size.size64 ≤ (placeOneofList d l st).size.size64 := by
  induction l with
  | nil => exact fun st _ => ⟨le_refl _, le_refl _⟩
  | cons o rest ih =>
    intro st hne
    have hms := oneofMaxSize_alignPos (oneofFieldsOf d o) (hne o (List.mem_cons_self o rest))
    obtain ⟨ha1, ha2⟩ := hms
    have g1 := le_Align st.size.size32 ha1
    have g2 := le_Align st.size.size64 ha2
    set ms := oneofMaxSize (oneofFieldsOf d o) with hms2
    set p1 := Place st (.oneofData o) ms with hp1
    set p2 := Place p1.2 (.oneofCase o) ⟨⟨4, 4⟩, ⟨4, 4⟩⟩ with hp2
    have g3 := le_Align p1.2.size.size32 (show (1 : Nat) ≤ 4 by omega)
    have g4 := le_Align p1.2.size.size64 (show (1 : Nat) ≤ 4 by omega)
    have hstep := ih { p2.2 with
      oneof_case_offsets := fun s => if s = o then some p2.1 else p2.2.oneof_case_offsets s
      field_offsets := setMemberOffsets (oneofFieldsOf d o) p1.1 p2.2.field_offsets }
      (fun o2 ho2 => hne o2 (List.mem_cons_of_mem o ho2))
    constructor
    · refine le_trans ?_ hstep.1
      show st.size.size32 ≤ Align p1.2.size.size32 4 + 4
      have : st.size.size32 ≤ p1.2.size.size32 := by
        rw [hp1]
        simp
        omega
      omega
    · refine le_trans ?_ hstep.2
      show st.size.size64 ≤ Align p1.2.size.size64 4 + 4
      have : st.size.size64 ≤ p1.2.size.size64 := by
        rw [hp1]
        simp
        omega
      omega

theorem placeOneofList_stinv (d : Descriptor) (l : List String) :
    ∀ st : LayoutState, (∀ o ∈ l, oneofFieldsOf d o ≠ []) → StInv st →
      StInv (placeOneofList d l st) := by
  induction l with
  | nil => exact fun _ _ h => h
  | cons o rest ih =>
    intro st hne h
    have hms := oneofMaxSize_alignPos (oneofFieldsOf d o) (hne o (List.mem_cons_self o rest))
    have h1 := Place_stinv st (.oneofData o) (oneofMaxSize (oneofFieldsOf d o)) h hms
    have h2 := Place_stinv _ (.oneofCase o) ⟨⟨4, 4⟩, ⟨4, 4⟩⟩ h1 ⟨by decide, by decide⟩
    have h3 : StInv { (Place (Place st (.oneofData o) (oneofMaxSize (oneofFieldsOf d o))).2
        (.oneofCase o) ⟨⟨4, 4⟩, ⟨4, 4⟩⟩).2 with
      oneof_case_offsets := fun s =>
        if s = o then some (Place (Place st (.oneofData o) (oneofMaxSize (oneofFieldsOf d o))).2
          (.oneofCase o) ⟨⟨4, 4⟩, ⟨4, 4⟩⟩).1
        else (Place (Place st (.oneofData o) (oneofMaxSize (oneofFieldsOf d o))).2
          (.oneofCase o) ⟨⟨4, 4⟩, ⟨4, 4⟩⟩).2.oneof_case_offsets s
      field_offsets := setMemberOffsets (oneofFieldsOf d o)
        (Place st (.oneofData o) (oneofMaxSize (oneofFieldsOf d o))).1
        (Place (Place st (.oneofData o) (oneofMaxSize (oneofFieldsOf d o))).2
          (.oneofCase o) ⟨⟨4, 4⟩, ⟨4, 4⟩⟩).2.field_offsets } := h2
    exact ih _ (fun o2 ho2 => hne o2 (List.mem_cons_of_mem o ho2)) h3

theorem placeOneofList_placed_prefix (d : Descriptor) (l : List String) :
    ∀ st : LayoutState, ∃ rs, (placeOneofList d l st).placed = st.placed ++ rs := by
  induction l with
  | nil => exact fun st => ⟨[], by simp [placeOneofList]⟩
  | cons o rest ih =>
    intro st
    set ms := oneofMaxSize (oneofFieldsOf d o) with hms2
    set p1 := Place st (.oneofData o) ms with hp1
    set p2 := Place p1.2 (.oneofCase o) ⟨⟨4, 4⟩, ⟨4, 4⟩⟩ with hp2
    obtain ⟨rs, hrs⟩ := ih { p2.2 with
      oneof_case_offsets := fun s => if s = o then some p2.1 else p2.2.oneof_case_offsets s
      field_offsets := setMemberOffsets (oneofFieldsOf d o) p1.1 p2.2.field_offsets }
    refine ⟨[⟨.oneofData o, st.size.alignUp ms.align, ms.size, ms.align⟩,
      ⟨.oneofCase o, p1.2.size.alignUp ⟨4, 4⟩, ⟨4, 4⟩, ⟨4, 4⟩⟩] ++ rs, ?_⟩
    rw [show placeOneofList d (o :: rest) st = placeOneofList d rest
      { p2.2 with
        oneof_case_offsets := fun s => if s = o then some p2.1 else p2.2.oneof_case_offsets s
        field_offsets := setMemberOffsets (oneofFieldsOf d o) p1.1 p2.2.field_offsets } from rfl]
    rw [hrs]
    simp [hp2, hp1, Place]

theorem placeOneofList_field_untouched (d : Descriptor) (l : List String) :
    ∀ (st : LayoutState) (n : Nat),
      (∀ o ∈ l, n ∉ (oneofFieldsOf d o).map (fun f => f.number)) →
      (placeOneofList d l st).field_offsets n = st.field_offsets n := by
  induction l with
  | nil => exact fun _ _ _ => rfl
  | cons o rest ih =>
    intro st n hn
    set ms := oneofMaxSize (oneofFieldsOf d o) with hms2
    set p1 := Place st (.oneofData o) ms with hp1
    set p2 := Place p1.2 (.oneofCase o) ⟨⟨4, 4⟩, ⟨4, 4⟩⟩ with hp2
    have hstep := ih { p2.2 with
      oneof_case_offsets := fun s => if s = o then some p2.1 else p2.2.oneof_case_offsets s
      field_offsets := setMemberOffsets (oneofFieldsOf d o) p1.1 p2.2.field_offsets } n
      (fun o2 ho2 => hn o2 (List.mem_cons_of_mem o ho2))
    rw [show placeOneofList d (o :: rest) st = placeOneofList d rest
      { p2.2 with
        oneof_case_offsets := fun s => if s = o then some p2.1 else p2.2.oneof_case_offsets s
        field_offsets := setMemberOffsets (oneofFieldsOf d o) p1.1 p2.2.field_offsets } from rfl]
    rw [hstep]
    show setMemberOffsets (oneofFieldsOf d o) p1.1 p2.2.field_offsets n = st.field_offsets n
    rw [setMemberOffsets_lookup, if_neg (hn o (List.mem_cons_self o rest))]
    rfl

theorem placeOneofList_case_untouched (d : Descriptor) (l : List String) :
    ∀ (st : LayoutState) (s : String), s ∉ l →
      (placeOneofList d l st).oneof_case_offsets s = st.oneof_case_offsets s := by
  induction l with
  | nil => exact fun _ _ _ => rfl
  | cons o rest ih =>
    intro st s hs
    simp only [List.mem_cons, not_or] at hs
    obtain ⟨hs1, hs2⟩ := hs
    set ms := oneofMaxSize (oneofFieldsOf d o) with hms2
    set p1 := Place st (.oneofData o) ms with hp1
    set p2 := Place p1.2 (.oneofCase o) ⟨⟨4, 4⟩, ⟨4, 4⟩⟩ with hp2
    have hstep := ih { p2.2 with
      oneof_case_offsets := fun t => if t = o then some p2.1 else p2.2.oneof_case_offsets t
      field_offsets := setMemberOffsets (oneofFieldsOf d o) p1.1 p2.2.field_offsets } s hs2
    rw [show placeOneofList d (o :: rest) st = placeOneofList d rest
      { p2.2 with
        oneof_case_offsets := fun t => if t = o then some p2.1 else p2.2.oneof_case_offsets t
        field_offsets := setMemberOffsets (oneofFieldsOf d o) p1.1 p2.2.field_offsets } from rfl]
    rw [hstep]
    show (if s = o then some p2.1 else p2.2.oneof_case_offsets s) = st.oneof_case_offsets s
    rw [if_neg hs1]
    rfl

theorem oneofFields_number_disjoint (d : Descriptor)
    (hnd : (d.fields.map (fun f => f.number)).Nodup)
    {o1 o2 : String} (hne : o1 ≠ o2) {n : Nat}
    (h1 : n ∈ (oneofFieldsOf d o1).map (fun f => f.number)) :
    n ∉ (oneofFieldsOf d o2).map (fun f => f.number) := by
  intro h2
  obtain ⟨f, hf, hfn⟩ := List.mem_map.mp h1
  obtain ⟨g, hg, hgn⟩ := List.mem_map.mp h2
  obtain ⟨hf2, hfo⟩ := List.mem_filter.mp hf
  obtain ⟨hg2, hgo⟩ := List.mem_filter.mp hg
  have hfg : f = g := by
    apply List.inj_on_of_nodup_map hnd hf2 hg2
    rw [hfn, hgn]
  subst hfg
  have e1 : f.containing_oneof = some o1 := by simpa using hfo
  have e2 : f.containing_oneof = some o2 := by simpa using hgo
  rw [e1] at e2
  exact hne (Option.some.injEq _ _ ▸ e2)

theorem placeOneofList_spec (d : Descriptor) (l : List String) :
    ∀ st : LayoutState, l.Nodup →
      (∀ o ∈ l, oneofFieldsOf d o ≠ []) →
      (d.fields.map (fun f => f.number)).Nodup →
      ∃ dataMap caseMap : String → DualSize,
        (∀ o ∈ l,
          (placeOneofList d l st).oneof_case_offsets o = some (caseMap o) ∧
            (∀ f ∈ oneofFieldsOf d o,
              (placeOneofList d l st).field_offsets f.number = some (dataMap o)) ∧
            caseMap o = ((dataMap o).add (oneofMaxSize (oneofFieldsOf d o)).size).alignUp ⟨4, 4⟩ ∧
            st.size.size32 ≤ (dataMap o).size32 ∧
            st.size.size64 ≤ (dataMap o).size64 ∧
            (caseMap o).size32 + 4 ≤ (placeOneofList d l st).size.size32 ∧
            (caseMap o).size64 + 4 ≤ (placeOneofList d l st).size.size64 ∧
            (⟨RegionTag.oneofData o, dataMap o, (oneofMaxSize (oneofFieldsOf d o)).size,
              (oneofMaxSize (oneofFieldsOf d o)).align⟩ : PlacedRegion) ∈
              (placeOneofList d l st).placed ∧
            (⟨RegionTag.oneofCase o, caseMap o, ⟨4, 4⟩, ⟨4, 4⟩⟩ : PlacedRegion) ∈
              (placeOneofList d l st).placed) ∧
          l.Pairwise (fun o1 o2 =>
            (caseMap o1).size32 + 4 ≤ (dataMap o2).size32 ∧
              (caseMap o1).size64 + 4 ≤ (dataMap o2).size64) := by
  induction l with
  | nil => exact fun st _ _ _ => ⟨fun _ => ⟨0, 0⟩, fun _ => ⟨0, 0⟩, by simp, by simp⟩
  | cons o rest ih =>
    intro st hnd hne hfnd
    have ho : o ∉ rest := (List.nodup_cons.mp hnd).1
    have hndr : rest.Nodup := (List.nodup_cons.mp hnd).2
    have hner : ∀ o2 ∈ rest, oneofFieldsOf d o2 ≠ [] :=
      fun o2 ho2 => hne o2 (List.mem_cons_of_mem o ho2)
    have hmso := oneofMaxSize_alignPos (oneofFieldsOf d o) (hne o (List.mem_cons_self o rest))
    obtain ⟨ha1, ha2⟩ := hmso
    set ms := oneofMaxSize (oneofFieldsOf d o) with hms2
    set p1 := Place st (.oneofData o) ms with hp1
    set p2 := Place p1.2 (.oneofCase o) ⟨⟨4, 4⟩, ⟨4, 4⟩⟩ with hp2
    set C : LayoutState := { p2.2 with
      oneof_case_offsets := fun s => if s = o then some p2.1 else p2.2.oneof_case_offsets s
      field_offsets := setMemberOffsets (oneofFieldsOf d o) p1.1 p2.2.field_offsets } with hC
    have hres : placeOneofList d (o :: rest) st = placeOneofList d rest C := rfl
    obtain ⟨dataMap', caseMap', hmem, hpw⟩ := ih C hndr hner hfnd
    have hmono := placeOneofList_size_mono d rest C hner
    -- arithmetic on the two places of this step
    have hd1 : p1.1.size32 = Align st.size.size32 ms.align.size32 := rfl
    have hd2 : p1.1.size64 = Align st.size.size64 ms.align.size64 := rfl
    have hs1 : p1.2.size.size32 = Align st.size.size32 ms.align.size32 + ms.size.size32 := rfl
    have hs2 : p1.2.size.size64 = Align st.size.size64 ms.align.size64 + ms.size.size64 := rfl
    have hc1 : p2.1.size32 = Align p1.2.size.size32 4 := rfl
    have hc2 : p2.1.size64 = Align p1.2.size.size64 4 := rfl
    have hC1 : C.size.size32 = Align p1.2.size.size32 4 + 4 := rfl
    have hC2 : C.size.size64 = Align p1.2.size.size64 4 + 4 := rfl
    have g1 := le_Align st.size.size32 ha1
    have g2 := le_Align st.size.size64 ha2
    have g3 := le_Align p1.2.size.size32 (show (1 : Nat) ≤ 4 by omega)
    have g4 := le_Align p1.2.size.size64 (show (1 : Nat) ≤ 4 by omega)
    have hstC1 : st.size.size32 ≤ C.size.size32 := by rw [hC1, hs1] at *; omega
    have hstC2 : st.size.size64 ≤ C.size.size64 := by rw [hC2, hs2] at *; omega
    refine ⟨Function.update dataMap' o p1.1, Function.update caseMap' o p2.1, ?_, ?_⟩
    · intro o2 ho2
      rcases List.mem_cons.mp ho2 with rfl | ho2'
      · rw [Function.update_same, Function.update_same, hres]
        obtain ⟨rs2, hrs2⟩ := placeOneofList_placed_prefix d rest C
        refine ⟨?_, ?_, ?_, ?_, ?_, ?_, ?_, ?_, ?_⟩
        · rw [placeOneofList_case_untouched d rest C o2 ho]
          show (if o2 = o2 then some p2.1 else _) = some p2.1
          rw [if_pos rfl]
        · intro f hf
          have hnotin : ∀ o3 ∈ rest, f.number ∉ (oneofFieldsOf d o3).map (fun f => f.number) := by
            intro o3 ho3
            have hne3 : o2 ≠ o3 := fun hcontra => ho (hcontra ▸ ho3)
            exact oneofFields_number_disjoint d hfnd hne3
              (List.mem_map_of_mem (fun f => f.number) hf)
          rw [placeOneofList_field_untouched d rest C f.number hnotin]
          show setMemberOffsets (oneofFieldsOf d o2) p1.1 p2.2.field_offsets f.number = _
          rw [setMemberOffsets_lookup,
            if_pos (List.mem_map_of_mem (fun f => f.number) hf)]
        · rfl
        · exact g1
        · exact g2
        · rw [hC1] at hmono
          have := hmono.1
          omega
        · rw [hC2] at hmono
          have := hmono.2
          omega
        · rw [hrs2]
          apply List.mem_append_left
          show _ ∈ C.placed
          rw [hC]
          show _ ∈ p2.2.placed
          rw [hp2, Place_placed, hp1, Place_placed]
          exact List.mem_append_left _
            (List.mem_append_right _ (List.mem_singleton.mpr rfl))
        · rw [hrs2]
          apply List.mem_append_left
          show _ ∈ C.placed
          rw [hC]
          show _ ∈ p2.2.placed
          rw [hp2, Place_placed]
          exact List.mem_append_right _ (List.mem_singleton.mpr rfl)
      · have hne2 : o2 ≠ o := fun hcontra => ho (hcontra ▸ ho2')
        rw [Function.update_noteq hne2, Function.update_noteq hne2, hres]
        obtain ⟨m1, m2, m3, m4, m5, m6, m7, m8, m9⟩ := hmem o2 ho2'
        refine ⟨m1, m2, m3, ?_, ?_, m6, m7, m8, m9⟩
        · exact le_trans hstC1 m4
        · exact le_trans hstC2 m5
    · rw [List.pairwise_cons]
      constructor
      · intro o2 ho2'
        have hne2 : o2 ≠ o := fun hcontra => ho (hcontra ▸ ho2')
        rw [Function.update_same, Function.update_noteq hne2]
        obtain ⟨_, _, _, m4, m5, _, _, _, _⟩ := hmem o2 ho2'
        constructor
        · rw [hc1]
          rw [hC1] at m4
          omega
        · rw [hc2]
          rw [hC2] at m5
          omega
      · refine hpw.imp_of_mem ?_
        intro a b ha hb hab
        have haf : a ≠ o := fun hcontra => ho (hcontra ▸ ha)
        have hbf : b ≠ o := fun hcontra => ho (hcontra ▸ hb)
        rw [Function.update_noteq haf, Function.update_noteq hbf]
        exact hab

/-! ### Decomposing `ComputeLayout` on the ordinary path -/

theorem computeLayout_error_iff_hasbits (d : Descriptor) (hme : d.map_entry = false)
    (e : LayoutFailure) :
    ComputeLayout d = .error e ↔
      placeHasbits d.map_entry (FieldHotnessOrder d)
        { initLayoutState with
          size := ⟨0, 0⟩
          maxalign := ⟨8, 8⟩
          hasbit_count := some 0
          required_count := some 0 } = .error e := by
  unfold ComputeLayout PlaceNonOneofFields
  rw [if_neg (by simp [hme])]
  split
  · rename_i e2 heq
    dsimp only [] at heq
    split at heq
    · rename_i e3 heq3
      simp only [Except.error.injEq] at heq
      subst heq
      have heq4 : placeHasbits d.map_entry (FieldHotnessOrder d)
          { initLayoutState with
            size := ⟨0, 0⟩
            maxalign := ⟨8, 8⟩
            hasbit_count := some 0
            required_count := some 0 } = .error e3 := heq3
      rw [heq4]
    · rename_i st2 heq3
      exact absurd heq (by simp)
  · rename_i st' heq
    dsimp only [] at heq
    split at heq
    · rename_i e3 heq3
      exact absurd heq (by simp)
    · rename_i st2 heq3
      have heq4 : placeHasbits d.map_entry (FieldHotnessOrder d)
          { initLayoutState with
            size := ⟨0, 0⟩
            maxalign := ⟨8, 8⟩
            hasbit_count := some 0
            required_count := some 0 } = .ok st2 := heq3
      rw [heq4]
      simp

theorem computeLayout_ordinary_decomp (d : Descriptor) (hme : d.map_entry = false)
    (st : LayoutState) (hok : ComputeLayout d = .ok st) :
    ∃ st2 : LayoutState,
      placeHasbits d.map_entry (FieldHotnessOrder d)
        { initLayoutState with
          size := ⟨0, 0⟩
          maxalign := ⟨8, 8⟩
          hasbit_count := some 0
          required_count := some 0 } = .ok st2 ∧
      st = finalAlign (PlaceOneofFields d (placeFieldList
        (List.insertionSort rankLE (d.fields.filter (fun f => f.containing_oneof == none)))
        (Place { st2 with hasbit_bytes := some (DivRoundUp (st2.hasbit_count.getD 0) 8) }
          .hasbits ⟨⟨DivRoundUp (st2.hasbit_count.getD 0) 8,
            DivRoundUp (st2.hasbit_count.getD 0) 8⟩, ⟨1, 1⟩⟩).2)) := by
  unfold ComputeLayout PlaceNonOneofFields at hok
  rw [if_neg (by simp [hme])] at hok
  split at hok
  · exact absurd hok (by simp)
  · rename_i st' heq
    dsimp only [] at heq
    split at heq
    · exact absurd heq (by simp)
    · rename_i st2 heq3
      have heq4 : placeHasbits d.map_entry (FieldHotnessOrder d)
          { initLayoutState with
            size := ⟨0, 0⟩
            maxalign := ⟨8, 8⟩
            hasbit_count := some 0
            required_count := some 0 } = .ok st2 := heq3
      simp only [Except.ok.injEq] at hok heq
      refine ⟨st2, heq4, ?_⟩
      rw [← hok, ← heq]

/-- Claim C1 (amended): for every ordinary message, `compute_layout`
terminates with the fatal usage-limit failure iff more than 63 required
fields carry presence bits, and the failure is reported with the
fully-qualified name of an offending required presence-tracked *field* (not
of the message); non-required presence-tracked fields may receive indices
above 63 without triggering any failure (this is the right-to-left direction
of the iff: no failure occurs whenever at most 63 required fields carry
presence bits, regardless of how many non-required fields do). -/
theorem C1_required_limit (d : Descriptor) (hme : d.map_entry = false) :
    ((∃ e, ComputeLayout d = .error e) ↔ 63 < requiredHasbitCount d) ∧
      ∀ e, ComputeLayout d = .error e →
        ∃ f ∈ d.fields, HasHasbit d.map_entry f = true ∧ f.is_required = true ∧
          e = LayoutFailure.tooManyRequired f.full_name := by
  have hsorted : (FieldHotnessOrder d).Sorted hotnessLE :=
    List.sorted_insertionSort hotnessLE d.fields
  have hperm : (FieldHotnessOrder d).Perm d.fields := List.perm_insertionSort hotnessLE d.fields
  obtain ⟨lreq, lopt, hsplit, hreq, hopt⟩ := sorted_required_split _ hsorted
  set st1 : LayoutState := { initLayoutState with
    size := ⟨0, 0⟩
    maxalign := ⟨8, 8⟩
    hasbit_count := some 0
    required_count := some 0 } with hst1
  have hKcount : requiredHasbitCount d = (hasbitFields d.map_entry lreq).length := by
    unfold requiredHasbitCount
    have h1 : (d.fields.filter
        (fun f => HasHasbit d.map_entry f && f.is_required)).length =
        ((FieldHotnessOrder d).filter
          (fun f => HasHasbit d.map_entry f && f.is_required)).length :=
      (hperm.symm.filter _).length_eq
    rw [h1, hsplit, List.filter_append, List.length_append]
    have h2 : lreq.filter (fun f => HasHasbit d.map_entry f && f.is_required) =
        lreq.filter (fun f => HasHasbit d.map_entry f) := by
      apply List.filter_congr
      intro f hf
      rw [hreq f hf, Bool.and_true]
    have h3 : lopt.filter (fun f => HasHasbit d.map_entry f && f.is_required) = [] := by
      rw [List.filter_eq_nil_iff]
      intro f hf
      rw [hopt f hf, Bool.and_false]
      simp
    rw [h2, h3]
    simp [hasbitFields]
  constructor
  · have hiff1 : (∃ e, ComputeLayout d = .error e) ↔
        ∃ e, placeHasbits d.map_entry (FieldHotnessOrder d) st1 = .error e := by
      constructor
      · rintro ⟨e, he⟩
        exact ⟨e, (computeLayout_error_iff_hasbits d hme e).mp he⟩
      · rintro ⟨e, he⟩
        exact ⟨e, (computeLayout_error_iff_hasbits d hme e).mpr he⟩
    rw [hiff1, hsplit]
    have happ := placeHasbits_append d.map_entry lreq lopt st1
    cases hph1 : placeHasbits d.map_entry lreq st1 with
    | error e1 =>
      rw [hph1] at happ
      dsimp only [] at happ
      have hiff2 := placeHasbits_allreq_error_iff d.map_entry lreq hreq st1 0 rfl
      rw [hph1] at hiff2
      have hk : 1 ≤ (hasbitFields d.map_entry lreq).length ∧
          63 < 0 + (hasbitFields d.map_entry lreq).length :=
        hiff2.mp ⟨e1, rfl⟩
      constructor
      · intro _
        rw [hKcount]
        omega
      · intro _
        exact ⟨e1, by rw [happ]⟩
    | ok stm =>
      rw [hph1] at happ
      dsimp only [] at happ
      have hiff2 := placeHasbits_allreq_error_iff d.map_entry lreq hreq st1 0 rfl
      rw [hph1] at hiff2
      have hnk : ¬(1 ≤ (hasbitFields d.map_entry lreq).length ∧
          63 < 0 + (hasbitFields d.map_entry lreq).length) := by
        intro hcontra
        obtain ⟨e, he⟩ := hiff2.mpr hcontra
        exact absurd he (by simp)
      obtain ⟨stf, hstf⟩ := placeHasbits_noreq_ok d.map_entry lopt hopt stm
      constructor
      · rintro ⟨e, he⟩
        rw [happ, hstf] at he
        exact absurd he (by simp)
      · intro hcount
        rw [hKcount] at hcount
        exact absurd ⟨by omega, by omega⟩ hnk
  · intro e he
    have hph := (computeLayout_error_iff_hasbits d hme e).mp he
    obtain ⟨f, hf, h1, h2, h3⟩ := placeHasbits_error_mem d.map_entry _ _ _ hph
    exact ⟨f, hperm.mem_iff.mp hf, h1, h2, h3⟩

/-- Witness for C1 at a concrete ordinary message (`dFull`: one required
presence-tracked field, so no failure). -/
theorem C1_witness :
    dFull.map_entry = false ∧
      (((∃ e, ComputeLayout dFull = .error e) ↔ 63 < requiredHasbitCount dFull) ∧
        ∀ e, ComputeLayout dFull = .error e →
          ∃ f ∈ dFull.fields, HasHasbit dFull.map_entry f = true ∧ f.is_required = true ∧
            e = LayoutFailure.tooManyRequired f.full_name) :=
  ⟨rfl, C1_required_limit dFull rfl⟩

theorem WF_oneofFields_ne (d : Descriptor) (hwf : WF d) :
    ∀ o ∈ d.oneof_decls, oneofFieldsOf d o ≠ [] := by
  intro o ho
  obtain ⟨f, hf, hfo⟩ := hwf.2.2.2.2 o ho
  have : f ∈ oneofFieldsOf d o := by
    rw [oneofFieldsOf, List.mem_filter]
    exact ⟨hf, by simp [hfo]⟩
  exact List.ne_nil_of_mem this

theorem computeLayout_pipeline (d : Descriptor) (hwf : WF d) (hme : d.map_entry = false)
    (st : LayoutState) (hok : ComputeLayout d = .ok st) :
    ∃ st2 : LayoutState,
      st2.hasbit_count = some (hasbitFields d.map_entry (FieldHotnessOrder d)).length ∧
      st2.size = ⟨0, 0⟩ ∧
      st2.maxalign = ⟨8, 8⟩ ∧
      st2.placed = [] ∧
      st2.field_offsets = (fun _ => none) ∧
      st2.oneof_case_offsets = (fun _ => none) ∧
      (∀ (i : Nat) (g : FieldDescriptor),
        (hasbitFields d.map_entry (FieldHotnessOrder d))[i]? = some g →
          st2.hasbit_indexes g.number = some (i + 1)) ∧
      (∀ n, n ∉ (hasbitFields d.map_entry (FieldHotnessOrder d)).map (fun f => f.number) →
        st2.hasbit_indexes n = none) ∧
      st = finalAlign (placeOneofList d
        (List.insertionSort (fun a b : String => a ≤ b) d.oneof_decls)
        (placeFieldList
          (List.insertionSort rankLE (d.fields.filter (fun f => f.containing_oneof == none)))
          (Place { st2 with hasbit_bytes := some (DivRoundUp (st2.hasbit_count.getD 0) 8) }
            .hasbits ⟨⟨DivRoundUp (st2.hasbit_count.getD 0) 8,
              DivRoundUp (st2.hasbit_count.getD 0) 8⟩, ⟨1, 1⟩⟩).2)) := by
  obtain ⟨st2, hph, hrest⟩ := computeLayout_ordinary_decomp d hme st hok
  have hframe := placeHasbits_frame d.map_entry (FieldHotnessOrder d) _ _ hph
  obtain ⟨hsz, hmx, hpl, hfo, hoc, hhb, hal⟩ := hframe
  have hcount := placeHasbits_ok_count d.map_entry (FieldHotnessOrder d) _ _ 0 rfl hph
  rw [Nat.zero_add] at hcount
  have hperm : (FieldHotnessOrder d).Perm d.fields := List.perm_insertionSort hotnessLE d.fields
  have hnd : ((FieldHotnessOrder d).map (fun f => f.number)).Nodup :=
    ((hperm.map (fun f => f.number)).nodup_iff).mpr hwf.1
  have hidx := placeHasbits_ok_indexes d.map_entry (FieldHotnessOrder d) _ _ 0 hnd rfl hph
  refine ⟨st2, hcount, by rw [hsz], by rw [hmx], by rw [hpl]; rfl, ?_, ?_, ?_, ?_, ?_⟩
  · rw [hfo]; rfl
  · rw [hoc]; rfl
  · intro i g hg
    have := hidx i g hg
    rwa [Nat.zero_add] at this
  · intro n hn
    have := placeHasbits_untouched d.map_entry (FieldHotnessOrder d) _ _ n hph hn
    rw [this]; rfl
  · exact hrest

/-- Claim C3 (amended): in every call to `place(shape)` the returned offset is
the running size aligned up to the shape's alignment component-wise, the
running size becomes that offset plus the shape's size, and the running
maximum alignment becomes the component-wise maximum of its old value and the
shape's *size* component; after all placements the total size is aligned up
to this running maximum, and the final total size is at least the largest
offset+size over all placed items in each width component independently.
The multiple-of property holds *provided the running maximum alignment
component is a power of two* (the unamended claim fails when it is not; see
the counterexample). -/
theorem C3_bump_allocation :
    (∀ (st : LayoutState) (tag : RegionTag) (sa : SizeAndAlign),
      (Place st tag sa).1 = st.size.alignUp sa.align ∧
        (Place st tag sa).2.size = ((Place st tag sa).1).add sa.size ∧
        (Place st tag sa).2.maxalign = st.maxalign.maxFrom sa.size) ∧
    ∀ (d : Descriptor) (st : LayoutState), WF d → ComputeLayout d = .ok st →
      ((∃ k, st.maxalign.size32 = 2 ^ k) → st.size.size32 % st.maxalign.size32 = 0) ∧
        ((∃ k, st.maxalign.size64 = 2 ^ k) → st.size.size64 % st.maxalign.size64 = 0) ∧
        Bounded st := by
  constructor
  · exact fun st tag sa => ⟨rfl, rfl, rfl⟩
  · intro d st hwf hok
    by_cases hme : d.map_entry = true
    · have hmap := computeLayout_map_entry d hme
      rw [hok] at hmap
      simp only [Except.ok.injEq] at hmap
      subst hmap
      refine ⟨fun _ => by decide, fun _ => by decide, ?_⟩
      intro r hr
      simp only [List.mem_cons, List.not_mem_nil, or_false] at hr
      rcases hr with rfl | rfl <;> exact ⟨by decide, by decide⟩
    · have hme2 : d.map_entry = false := by
        cases h : d.map_entry
        · rfl
        · exact absurd h hme
      obtain ⟨st2, hcnt, hsz, hmx, hpl, hfo, hoc, hidx, hunt, hrest⟩ :=
        computeLayout_pipeline d hwf hme2 st hok
      set st3 : LayoutState :=
        { st2 with hasbit_bytes := some (DivRoundUp (st2.hasbit_count.getD 0) 8) } with hst3
      have hstinv3 : StInv st3 := by
        refine ⟨?_, ?_, ?_, ?_⟩
        · intro r hr
          rw [show st3.placed = st2.placed from rfl, hpl] at hr
          exact absurd hr (List.not_mem_nil r)
        · unfold Separated
          rw [show st3.placed = st2.placed from rfl, hpl]
          exact List.Pairwise.nil
        · rw [show st3.maxalign = st2.maxalign from rfl, hmx]
          decide
        · rw [show st3.maxalign = st2.maxalign from rfl, hmx]
          decide
      have hstinv4 := Place_stinv st3 .hasbits
        ⟨⟨DivRoundUp (st2.hasbit_count.getD 0) 8, DivRoundUp (st2.hasbit_count.getD 0) 8⟩, ⟨1, 1⟩⟩
        hstinv3 ⟨Nat.le_refl 1, Nat.le_refl 1⟩
      have hstinv5 := placeFieldList_stinv
        (List.insertionSort rankLE (d.fields.filter (fun f => f.containing_oneof == none))) _
        hstinv4
      have hne : ∀ o ∈ List.insertionSort (fun a b : String => a ≤ b) d.oneof_decls,
          oneofFieldsOf d o ≠ [] := by
        intro o ho
        exact WF_oneofFields_ne d hwf o
          ((List.perm_insertionSort (fun a b : String => a ≤ b) d.oneof_decls).mem_iff.mp ho)
      have hstinv6 := placeOneofList_stinv d
        (List.insertionSort (fun a b : String => a ≤ b) d.oneof_decls) _ hne hstinv5
      rw [hrest]
      refine ⟨?_, ?_, finalAlign_bounded _ hstinv6⟩
      · rintro ⟨k, hk⟩
        rw [finalAlign_maxalign] at hk
        rw [finalAlign_size32, finalAlign_maxalign, hk]
        exact Align_pow2_mod _ k
      · rintro ⟨k, hk⟩
        rw [finalAlign_maxalign] at hk
        rw [finalAlign_size64, finalAlign_maxalign, hk]
        exact Align_pow2_mod _ k

/-- Witness for C3 at the concrete ordinary message `dFull`. -/
theorem C3_witness :
    WF dFull ∧
      ∃ st, ComputeLayout dFull = .ok st ∧
        (((∃ k, st.maxalign.size32 = 2 ^ k) → st.size.size32 % st.maxalign.size32 = 0) ∧
          ((∃ k, st.maxalign.size64 = 2 ^ k) → st.size.size64 % st.maxalign.size64 = 0) ∧
          Bounded st) := by
  have hok : ∃ st, ComputeLayout dFull = .ok st := by
    cases h : ComputeLayout dFull with
    | error e =>
      have : errorNameOf dFull = none := by decide
      rw [errorNameOf, h] at this
      cases e
      exact absurd this (by simp)
    | ok st => exact ⟨st, rfl⟩
  obtain ⟨st, hst⟩ := hok
  exact ⟨by decide, st, hst, C3_bump_allocation.2 dFull st (by decide) hst⟩

theorem nononeof_not_member (d : Descriptor)
    (hnd : (d.fields.map (fun f => f.number)).Nodup)
    {f : FieldDescriptor} (hf : f ∈ d.fields) (hnone : f.containing_oneof = none) :
    ∀ o, f.number ∉ (oneofFieldsOf d o).map (fun g => g.number) := by
  intro o hmem
  obtain ⟨g, hg, hgn⟩ := List.mem_map.mp hmem
  obtain ⟨hg2, hgo⟩ := List.mem_filter.mp hg
  have hfg : f = g := by
    apply List.inj_on_of_nodup_map hnd hf hg2
    rw [hgn]
  subst hfg
  rw [hnone] at hgo
  simp at hgo

theorem computeLayout_ordinary_full (d : Descriptor) (hwf : WF d) (hme : d.map_entry = false)
    (st : LayoutState) (hok : ComputeLayout d = .ok st) :
    ∃ (count hb : Nat) (sizeF : DualSize) (offMap : Nat → DualSize)
      (dataMap caseMap : String → DualSize),
      count = (hasbitFields d.map_entry (FieldHotnessOrder d)).length ∧
      hb = DivRoundUp count 8 ∧
      st.hasbit_count = some count ∧
      st.hasbit_bytes = some hb ∧
      (∀ (i : Nat) (g : FieldDescriptor),
        (hasbitFields d.map_entry (FieldHotnessOrder d))[i]? = some g →
          st.hasbit_indexes g.number = some (i + 1)) ∧
      (∀ n, n ∉ (hasbitFields d.map_entry (FieldHotnessOrder d)).map (fun f => f.number) →
        st.hasbit_indexes n = none) ∧
      st.placed.head? = some ⟨.hasbits, ⟨0, 0⟩, ⟨hb, hb⟩, ⟨1, 1⟩⟩ ∧
      hb ≤ sizeF.size32 ∧ hb ≤ sizeF.size64 ∧
      (∀ f ∈ List.insertionSort rankLE
          (d.fields.filter (fun f => f.containing_oneof == none)),
        st.field_offsets f.number = some (offMap f.number) ∧
          hb ≤ (offMap f.number).size32 ∧ hb ≤ (offMap f.number).size64 ∧
          (offMap f.number).size32 + (SizeOfField f).size.size32 ≤ sizeF.size32 ∧
          (offMap f.number).size64 + (SizeOfField f).size.size64 ≤ sizeF.size64) ∧
      (List.insertionSort rankLE
          (d.fields.filter (fun f => f.containing_oneof == none))).Pairwise
        (fun f g =>
          (offMap f.number).size32 + (SizeOfField f).size.size32 ≤ (offMap g.number).size32 ∧
            (offMap f.number).size64 + (SizeOfField f).size.size64 ≤ (offMap g.number).size64) ∧
      (∀ o ∈ List.insertionSort (fun a b : String => a ≤ b) d.oneof_decls,
        st.oneof_case_offsets o = some (caseMap o) ∧
          (∀ f ∈ oneofFieldsOf d o, st.field_offsets f.number = some (dataMap o)) ∧
          caseMap o = ((dataMap o).add (oneofMaxSize (oneofFieldsOf d o)).size).alignUp ⟨4, 4⟩ ∧
          sizeF.size32 ≤ (dataMap o).size32 ∧ sizeF.size64 ≤ (dataMap o).size64 ∧
          (⟨RegionTag.oneofData o, dataMap o, (oneofMaxSize (oneofFieldsOf d o)).size,
            (oneofMaxSize (oneofFieldsOf d o)).align⟩ : PlacedRegion) ∈ st.placed ∧
          (⟨RegionTag.oneofCase o, caseMap o, ⟨4, 4⟩, ⟨4, 4⟩⟩ : PlacedRegion) ∈ st.placed) ∧
      (List.insertionSort (fun a b : String => a ≤ b) d.oneof_decls).Pairwise
        (fun o1 o2 => (caseMap o1).size32 + 4 ≤ (dataMap o2).size32 ∧
          (caseMap o1).size64 + 4 ≤ (dataMap o2).size64) := by
  obtain ⟨st2, hcnt, hsz, hmx, hpl, hfo, hoc, hidx, hunt, hrest⟩ :=
    computeLayout_pipeline d hwf hme st hok
  set count := (hasbitFields d.map_entry (FieldHotnessOrder d)).length with hcountdef
  have hgetD : st2.hasbit_count.getD 0 = count := by rw [hcnt]; rfl
  set FO := List.insertionSort rankLE
    (d.fields.filter (fun f => f.containing_oneof == none)) with hFO
  set OO := List.insertionSort (fun a b : String => a ≤ b) d.oneof_decls with hOO
  set st3 : LayoutState :=
    { st2 with hasbit_bytes := some (DivRoundUp (st2.hasbit_count.getD 0) 8) } with hst3
  set st4 : LayoutState := (Place st3 .hasbits
    ⟨⟨DivRoundUp (st2.hasbit_count.getD 0) 8, DivRoundUp (st2.hasbit_count.getD 0) 8⟩,
      ⟨1, 1⟩⟩).2 with hst4
  have hst3sz : st3.size = ⟨0, 0⟩ := hsz
  have halign01 : Align 0 1 = 0 := rfl
  have hst4sz32 : st4.size.size32 = DivRoundUp count 8 := by
    rw [hst4, Place_size32, hst3sz]
    show Align 0 1 + DivRoundUp (st2.hasbit_count.getD 0) 8 = _
    rw [hgetD, halign01, Nat.zero_add]
  have hst4sz64 : st4.size.size64 = DivRoundUp count 8 := by
    rw [hst4, Place_size64, hst3sz]
    show Align 0 1 + DivRoundUp (st2.hasbit_count.getD 0) 8 = _
    rw [hgetD, halign01, Nat.zero_add]
  have hst4placed : st4.placed =
      [⟨.hasbits, ⟨0, 0⟩, ⟨DivRoundUp count 8, DivRoundUp count 8⟩, ⟨1, 1⟩⟩] := by
    rw [hst4, Place_placed]
    show st3.placed ++ _ = _
    have : st3.placed = [] := hpl
    rw [this, List.nil_append, hst3sz, hgetD]
    simp [DualSize.alignUp, Align]
  have hFOnodup : (FO.map (fun f => f.number)).Nodup := by
    have hsub : (d.fields.filter (fun f => f.containing_oneof == none)).Sublist d.fields :=
      List.filter_sublist d.fields
    have h1 : ((d.fields.filter (fun f => f.containing_oneof == none)).map
        (fun f => f.number)).Nodup := (hsub.map (fun f => f.number)).nodup hwf.1
    exact (((List.perm_insertionSort rankLE _).map (fun f => f.number)).nodup_iff).mpr h1
  obtain ⟨offMap, hfmem, hfpw⟩ := placeFieldList_spec FO st4 hFOnodup
  set st5 := placeFieldList FO st4 with hst5
  have hOOnodup : OO.Nodup :=
    ((List.perm_insertionSort (fun a b : String => a ≤ b) d.oneof_decls).nodup_iff).mpr
      hwf.2.2.1
  have hOOne : ∀ o ∈ OO, oneofFieldsOf d o ≠ [] := by
    intro o ho
    exact WF_oneofFields_ne d hwf o
      ((List.perm_insertionSort (fun a b : String => a ≤ b) d.oneof_decls).mem_iff.mp ho)
  obtain ⟨dataMap, caseMap, homem, hopw⟩ := placeOneofList_spec d OO st5 hOOnodup hOOne hwf.1
  set st6 := placeOneofList d OO st5 with hst6
  have hstfo : st.field_offsets = st6.field_offsets := by rw [hrest]; rfl
  have hstoc : st.oneof_case_offsets = st6.oneof_case_offsets := by rw [hrest]; rfl
  have hstplaced : st.placed = st6.placed := by rw [hrest]; rfl
  have hsthc : st.hasbit_count = st2.hasbit_count := by
    rw [hrest, finalAlign_hasbit_count]
    rw [(placeOneofList_frame d OO _).2.1]
    rw [(placeFieldList_frame FO _).2.2.1]
    rfl
  have hsthb : st.hasbit_bytes = some (DivRoundUp count 8) := by
    rw [hrest, finalAlign_hasbit_bytes]
    rw [(placeOneofList_frame d OO _).2.2.1]
    rw [(placeFieldList_frame FO _).2.2.2.1]
    show st3.hasbit_bytes = _
    rw [hst3]
    show some (DivRoundUp (st2.hasbit_count.getD 0) 8) = _
    rw [hgetD]
  have hsthi : st.hasbit_indexes = st2.hasbit_indexes := by
    rw [hrest, finalAlign_hasbit_indexes]
    rw [(placeOneofList_frame d OO _).1]
    rw [(placeFieldList_frame FO _).1]
    rfl
  have hmono45 := placeFieldList_size_mono FO st4
  refine ⟨count, DivRoundUp count 8, st5.size, offMap, dataMap, caseMap,
    rfl, rfl, by rw [hsthc, hcnt], hsthb, ?_, ?_, ?_, ?_, ?_, ?_, ?_, ?_, ?_⟩
  · intro i g hg
    rw [hsthi]
    exact hidx i g hg
  · intro n hn
    rw [hsthi]
    exact hunt n hn
  · rw [hstplaced]
    obtain ⟨rs6, hrs6⟩ := placeOneofList_placed_prefix d OO st5
    obtain ⟨rs5, hrs5⟩ := placeFieldList_placed_prefix FO st4
    rw [hrs6, hst5] at *
    rw [hrs5, hst4placed]
    rfl
  · rw [← hst4sz32]
    exact hmono45.1
  · rw [← hst4sz64]
    exact hmono45.2
  · intro f hf
    obtain ⟨h1, h2, h3, h4, h5⟩ := hfmem f hf
    have hffields : f ∈ d.fields :=
      List.mem_of_mem_filter
        ((List.perm_insertionSort rankLE _).mem_iff.mp hf)
    have hfnone : f.containing_oneof = none := by
      have := List.of_mem_filter ((List.perm_insertionSort rankLE _).mem_iff.mp hf)
      simpa using this
    have huntouched : st6.field_offsets f.number = st5.field_offsets f.number := by
      rw [hst6]
      exact placeOneofList_field_untouched d OO st5 f.number
        (fun o _ => nononeof_not_member d hwf.1 hffields hfnone o)
    refine ⟨?_, ?_, ?_, h4, h5⟩
    · rw [hstfo, huntouched]
      exact h1
    · rw [← hst4sz32]
      exact h2
    · rw [← hst4sz64]
      exact h3
  · exact hfpw
  · intro o ho
    obtain ⟨m1, m2, m3, m4, m5, m6, m7, m8, m9⟩ := homem o ho
    refine ⟨by rw [hstoc]; exact m1, ?_, m3, m4, m5, ?_, ?_⟩
    · intro f hf
      rw [hstfo]
      exact m2 f hf
    · rw [hstplaced]
      exact m8
    · rw [hstplaced]
      exact m9
  · exact hopw

/-- Claim C6: presence-bit indices are assigned by iterating the fields in
`FieldHotnessOrder` (which is sorted by required-first then ascending
number, and is a permutation of the message's fields); they are the
contiguous integers 1..count along that order with 0 reserved for untracked
fields, required fields occupy the lowest indices, and the presence region
of `ceil(count/8)` bytes is the first region placed, at offset {0,0} with
1-byte alignment, before any field. -/
theorem C6_presence_bits (d : Descriptor) (st : LayoutState) (hwf : WF d)
    (hme : d.map_entry = false) (hok : ComputeLayout d = .ok st) :
    ∃ count hb,
      count = (hasbitFields d.map_entry (FieldHotnessOrder d)).length ∧
      (FieldHotnessOrder d).Sorted hotnessLE ∧
      (FieldHotnessOrder d).Perm d.fields ∧
      st.hasbit_count = some count ∧
      hb = DivRoundUp count 8 ∧
      st.hasbit_bytes = some hb ∧
      (∀ (i : Nat) (g : FieldDescriptor),
        (hasbitFields d.map_entry (FieldHotnessOrder d))[i]? = some g →
          st.hasbit_indexes g.number = some (i + 1)) ∧
      (∀ n, n ∉ (hasbitFields d.map_entry (FieldHotnessOrder d)).map (fun f => f.number) →
        st.hasbit_indexes n = none) ∧
      (∀ n k, st.hasbit_indexes n = some k → 1 ≤ k ∧ k ≤ count) ∧
      (∀ (i j : Nat) (gi gj : FieldDescriptor),
        (hasbitFields d.map_entry (FieldHotnessOrder d))[i]? = some gi →
        (hasbitFields d.map_entry (FieldHotnessOrder d))[j]? = some gj →
        gi.is_required = false → gj.is_required = true → j < i) ∧
      st.placed.head? = some ⟨.hasbits, ⟨0, 0⟩, ⟨hb, hb⟩, ⟨1, 1⟩⟩ ∧
      (∀ f ∈ d.fields, f.containing_oneof = none →
        ∃ off, st.field_offsets f.number = some off ∧ hb ≤ off.size32 ∧ hb ≤ off.size64) := by
  obtain ⟨count, hb, sizeF, offMap, dataMap, caseMap, hcountdef, hhbdef, hcnt, hhb,
    hidx, hunt, hhead, _, _, hfields, _, _, _⟩ :=
    computeLayout_ordinary_full d hwf hme st hok
  have hsorted : (FieldHotnessOrder d).Sorted hotnessLE :=
    List.sorted_insertionSort hotnessLE d.fields
  have hperm : (FieldHotnessOrder d).Perm d.fields := List.perm_insertionSort hotnessLE d.fields
  obtain ⟨lreq, lopt, hsplit, hreq, hopt⟩ := sorted_required_split _ hsorted
  have hHBsplit : hasbitFields d.map_entry (FieldHotnessOrder d) =
      hasbitFields d.map_entry lreq ++ hasbitFields d.map_entry lopt := by
    rw [hsplit]
    simp [hasbitFields, List.filter_append]
  refine ⟨count, hb, hcountdef, hsorted, hperm, hcnt, hhbdef, hhb, hidx, hunt, ?_, ?_,
    hhead, ?_⟩
  · intro n k hk
    by_cases hn : n ∈ (hasbitFields d.map_entry (FieldHotnessOrder d)).map (fun f => f.number)
    · obtain ⟨g, hg, hgn⟩ := List.mem_map.mp hn
      obtain ⟨i, hi⟩ := List.mem_iff_getElem?.mp hg
      have hlt : i < (hasbitFields d.map_entry (FieldHotnessOrder d)).length := by
        rcases List.getElem?_eq_some.mp hi with ⟨h, _⟩
        exact h
      have := hidx i g hi
      rw [hgn] at this
      rw [this] at hk
      simp only [Option.some.injEq] at hk
      subst hk
      rw [hcountdef]
      omega
    · rw [hunt n hn] at hk
      exact absurd hk (by simp)
  · intro i j gi gj hgi hgj hreqi hreqj
    set L1 := hasbitFields d.map_entry lreq with hL1
    set L2 := hasbitFields d.map_entry lopt with hL2
    have hi_ge : L1.length ≤ i := by
      by_contra hcon
      push_neg at hcon
      rw [hHBsplit, List.getElem?_append, if_pos hcon] at hgi
      have : gi ∈ L1 := List.getElem?_mem hgi
      have : gi.is_required = true := hreq gi (List.mem_of_mem_filter this)
      rw [hreqi] at this
      exact absurd this (by simp)
    have hj_lt : j < L1.length := by
      by_contra hcon
      push_neg at hcon
      rw [hHBsplit, List.getElem?_append, if_neg (by omega)] at hgj
      have : gj ∈ L2 := List.getElem?_mem hgj
      have : gj.is_required = false := hopt gj (List.mem_of_mem_filter this)
      rw [hreqj] at this
      exact absurd this (by simp)
    omega
  · intro f hf hfnone
    have hmemFO : f ∈ List.insertionSort rankLE
        (d.fields.filter (fun f => f.containing_oneof == none)) := by
      rw [(List.perm_insertionSort rankLE _).mem_iff]
      rw [List.mem_filter]
      exact ⟨hf, by simp [hfnone]⟩
    obtain ⟨h1, h2, h3, _, _⟩ := hfields f hmemFO
    exact ⟨offMap f.number, h1, h2, h3⟩

/-- Witness for C6 at the concrete ordinary message `dFull`. -/
theorem C6_witness :
    WF dFull ∧ dFull.map_entry = false ∧
      ∃ st, ComputeLayout dFull = .ok st ∧
        ∃ count hb,
          count = (hasbitFields dFull.map_entry (FieldHotnessOrder dFull)).length ∧
          (FieldHotnessOrder dFull).Sorted hotnessLE ∧
          (FieldHotnessOrder dFull).Perm dFull.fields ∧
          st.hasbit_count = some count ∧
          hb = DivRoundUp count 8 ∧
          st.hasbit_bytes = some hb ∧
          (∀ (i : Nat) (g : FieldDescriptor),
            (hasbitFields dFull.map_entry (FieldHotnessOrder dFull))[i]? = some g →
              st.hasbit_indexes g.number = some (i + 1)) ∧
          (∀ n, n ∉ (hasbitFields dFull.map_entry
              (FieldHotnessOrder dFull)).map (fun f => f.number) →
            st.hasbit_indexes n = none) ∧
          (∀ n k, st.hasbit_indexes n = some k → 1 ≤ k ∧ k ≤ count) ∧
          (∀ (i j : Nat) (gi gj : FieldDescriptor),
            (hasbitFields dFull.map_entry (FieldHotnessOrder dFull))[i]? = some gi →
            (hasbitFields dFull.map_entry (FieldHotnessOrder dFull))[j]? = some gj →
            gi.is_required = false → gj.is_required = true → j < i) ∧
          st.placed.head? = some ⟨.hasbits, ⟨0, 0⟩, ⟨hb, hb⟩, ⟨1, 1⟩⟩ ∧
          (∀ f ∈ dFull.fields, f.containing_oneof = none →
            ∃ off, st.field_offsets f.number = some off ∧
              hb ≤ off.size32 ∧ hb ≤ off.size64) := by
  have hok : ∃ st, ComputeLayout dFull = .ok st := by
    cases h : ComputeLayout dFull with
    | error e =>
      have : errorNameOf dFull = none := by decide
      rw [errorNameOf, h] at this
      cases e
      exact absurd this (by simp)
    | ok st => exact ⟨st, rfl⟩
  obtain ⟨st, hst⟩ := hok
  exact ⟨by decide, rfl, st, hst, C6_presence_bits dFull st (by decide) rfl hst⟩

/-- Claim C4: for every ordinary message and every oneof in it, all member
fields map to one identical data offset; the data slot's shape (recorded in
the placement trace) is the component-wise maximum of the members'
`SizeOfField` shapes; the discriminator is a 4-byte, 4-byte-aligned slot
bump-allocated right after, whose offset is the data offset plus the
oneof's combined member size aligned up to 4; oneof groups are placed after
all non-oneof fields, and in ascending lexicographic order of their
fully-qualified names. -/
theorem C4_oneof_layout (d : Descriptor) (st : LayoutState) (hwf : WF d)
    (hme : d.map_entry = false) (hok : ComputeLayout d = .ok st) :
    ∃ dataMap caseMap : String → DualSize,
      (∀ o ∈ d.oneof_decls,
        (∀ f ∈ oneofFieldsOf d o, st.field_offsets f.number = some (dataMap o)) ∧
          (⟨RegionTag.oneofData o, dataMap o, (oneofMaxSize (oneofFieldsOf d o)).size,
            (oneofMaxSize (oneofFieldsOf d o)).align⟩ : PlacedRegion) ∈ st.placed ∧
          st.oneof_case_offsets o = some (caseMap o) ∧
          caseMap o = ((dataMap o).add (oneofMaxSize (oneofFieldsOf d o)).size).alignUp ⟨4, 4⟩ ∧
          (⟨RegionTag.oneofCase o, caseMap o, ⟨4, 4⟩, ⟨4, 4⟩⟩ : PlacedRegion) ∈ st.placed ∧
          (∀ f ∈ d.fields, f.containing_oneof = none →
            ∀ off, st.field_offsets f.number = some off →
              off.size32 + (SizeOfField f).size.size32 ≤ (dataMap o).size32 ∧
                off.size64 + (SizeOfField f).size.size64 ≤ (dataMap o).size64)) ∧
      ∀ o1 ∈ d.oneof_decls, ∀ o2 ∈ d.oneof_decls, o1 < o2 →
        (caseMap o1).size32 + 4 ≤ (dataMap o2).size32 ∧
          (caseMap o1).size64 + 4 ≤ (dataMap o2).size64 := by
  obtain ⟨count, hb, sizeF, offMap, dataMap, caseMap, _, _, _, _, _, _, _, _, _,
    hfields, _, hone, hopw⟩ := computeLayout_ordinary_full d hwf hme st hok
  have hOOperm : (List.insertionSort (fun a b : String => a ≤ b) d.oneof_decls).Perm
      d.oneof_decls := List.perm_insertionSort _ _
  have hOOsorted : (List.insertionSort (fun a b : String => a ≤ b) d.oneof_decls).Sorted
      (fun a b : String => a ≤ b) := List.sorted_insertionSort _ _
  refine ⟨dataMap, caseMap, ?_, ?_⟩
  · intro o ho
    have hoOO : o ∈ List.insertionSort (fun a b : String => a ≤ b) d.oneof_decls :=
      hOOperm.mem_iff.mpr ho
    obtain ⟨m1, m2, m3, m4, m5, m6, m7⟩ := hone o hoOO
    refine ⟨m2, m6, m1, m3, m7, ?_⟩
    intro f hf hfnone off hoff
    have hmemFO : f ∈ List.insertionSort rankLE
        (d.fields.filter (fun f => f.containing_oneof == none)) := by
      rw [(List.perm_insertionSort rankLE _).mem_iff]
      rw [List.mem_filter]
      exact ⟨hf, by simp [hfnone]⟩
    obtain ⟨h1, _, _, h4, h5⟩ := hfields f hmemFO
    rw [h1] at hoff
    simp only [Option.some.injEq] at hoff
    subst hoff
    exact ⟨le_trans h4 m4, le_trans h5 m5⟩
  · intro o1 ho1 o2 ho2 hlt
    have h1 : o1 ∈ List.insertionSort (fun a b : String => a ≤ b) d.oneof_decls :=
      hOOperm.mem_iff.mpr ho1
    have h2 : o2 ∈ List.insertionSort (fun a b : String => a ≤ b) d.oneof_decls :=
      hOOperm.mem_iff.mpr ho2
    obtain ⟨i1, hi1⟩ := List.mem_iff_get.mp h1
    obtain ⟨i2, hi2⟩ := List.mem_iff_get.mp h2
    have hpwget := List.pairwise_iff_get.mp hopw
    have hsget := List.pairwise_iff_get.mp hOOsorted
    rcases Nat.lt_trichotomy i1.val i2.val with hcase | hcase | hcase
    · have := hpwget i1 i2 (by exact hcase)
      rw [hi1, hi2] at this
      exact this
    · exfalso
      have : i1 = i2 := Fin.ext hcase
      subst this
      rw [hi1] at hi2
      subst hi2
      exact lt_irrefl o1 hlt
    · exfalso
      have := hsget i2 i1 (by exact hcase)
      rw [hi1, hi2] at this
      exact absurd hlt (not_lt.mpr this)

/-- Witness for C4 at the concrete ordinary message `dFull` (one oneof with
an int32 and a message member). -/
theorem C4_witness :
    WF dFull ∧ dFull.map_entry = false ∧
      ∃ st, ComputeLayout dFull = .ok st ∧
        ∃ dataMap caseMap : String → DualSize,
          (∀ o ∈ dFull.oneof_decls,
            (∀ f ∈ oneofFieldsOf dFull o, st.field_offsets f.number = some (dataMap o)) ∧
              (⟨RegionTag.oneofData o, dataMap o, (oneofMaxSize (oneofFieldsOf dFull o)).size,
                (oneofMaxSize (oneofFieldsOf dFull o)).align⟩ : PlacedRegion) ∈ st.placed ∧
              st.oneof_case_offsets o = some (caseMap o) ∧
              caseMap o =
                ((dataMap o).add (oneofMaxSize (oneofFieldsOf dFull o)).size).alignUp ⟨4, 4⟩ ∧
              (⟨RegionTag.oneofCase o, caseMap o, ⟨4, 4⟩, ⟨4, 4⟩⟩ : PlacedRegion) ∈ st.placed ∧
              (∀ f ∈ dFull.fields, f.containing_oneof = none →
                ∀ off, st.field_offsets f.number = some off →
                  off.size32 + (SizeOfField f).size.size32 ≤ (dataMap o).size32 ∧
                    off.size64 + (SizeOfField f).size.size64 ≤ (dataMap o).size64)) ∧
          ∀ o1 ∈ dFull.oneof_decls, ∀ o2 ∈ dFull.oneof_decls, o1 < o2 →
            (caseMap o1).size32 + 4 ≤ (dataMap o2).size32 ∧
              (caseMap o1).size64 + 4 ≤ (dataMap o2).size64 := by
  have hok : ∃ st, ComputeLayout dFull = .ok st := by
    cases h : ComputeLayout dFull with
    | error e =>
      have : errorNameOf dFull = none := by decide
      rw [errorNameOf, h] at this
      cases e
      exact absurd this (by simp)
    | ok st => exact ⟨st, rfl⟩
  obtain ⟨st, hst⟩ := hok
  exact ⟨by decide, rfl, st, hst, C4_oneof_layout dFull st (by decide) rfl hst⟩

/-- Claim C5: for every ordinary message, the byte range of the presence-bit
region (`[0, hb)`), the byte range of every non-oneof field, and the
combined data-plus-discriminator byte range of each oneof are pairwise
disjoint, under the 32-bit and 64-bit width components independently.  All
ranges are read off the layout's query surface (`field_offsets`,
`oneof_case_offsets`, `hasbit_bytes`). -/
theorem C5_nonoverlap (d : Descriptor) (st : LayoutState) (hwf : WF d)
    (hme : d.map_entry = false) (hok : ComputeLayout d = .ok st) :
    ∃ (hb : Nat) (offMap : Nat → DualSize) (dataMap caseMap : String → DualSize),
      st.hasbit_bytes = some hb ∧
      (∀ f ∈ d.fields, f.containing_oneof = none →
        st.field_offsets f.number = some (offMap f.number)) ∧
      (∀ o ∈ d.oneof_decls, st.oneof_case_offsets o = some (caseMap o) ∧
        ∀ f ∈ oneofFieldsOf d o, st.field_offsets f.number = some (dataMap o)) ∧
      (∀ f ∈ d.fields, f.containing_oneof = none →
        hb ≤ (offMap f.number).size32 ∧ hb ≤ (offMap f.number).size64) ∧
      (∀ o ∈ d.oneof_decls, hb ≤ (dataMap o).size32 ∧ hb ≤ (dataMap o).size64) ∧
      (∀ f ∈ d.fields, ∀ g ∈ d.fields,
        f.containing_oneof = none → g.containing_oneof = none → f.number ≠ g.number →
        (∀ x, ¬((offMap f.number).size32 ≤ x ∧
            x < (offMap f.number).size32 + (SizeOfField f).size.size32 ∧
            (offMap g.number).size32 ≤ x ∧
            x < (offMap g.number).size32 + (SizeOfField g).size.size32)) ∧
        (∀ x, ¬((offMap f.number).size64 ≤ x ∧
            x < (offMap f.number).size64 + (SizeOfField f).size.size64 ∧
            (offMap g.number).size64 ≤ x ∧
            x < (offMap g.number).size64 + (SizeOfField g).size.size64))) ∧
      (∀ f ∈ d.fields, f.containing_oneof = none → ∀ o ∈ d.oneof_decls,
        (∀ x, ¬((offMap f.number).size32 ≤ x ∧
            x < (offMap f.number).size32 + (SizeOfField f).size.size32 ∧
            (dataMap o).size32 ≤ x ∧ x < (caseMap o).size32 + 4)) ∧
        (∀ x, ¬((offMap f.number).size64 ≤ x ∧
            x < (offMap f.number).size64 + (SizeOfField f).size.size64 ∧
            (dataMap o).size64 ≤ x ∧ x < (caseMap o).size64 + 4))) ∧
      (∀ o1 ∈ d.oneof_decls, ∀ o2 ∈ d.oneof_decls, o1 ≠ o2 →
        (∀ x, ¬((dataMap o1).size32 ≤ x ∧ x < (caseMap o1).size32 + 4 ∧
            (dataMap o2).size32 ≤ x ∧ x < (caseMap o2).size32 + 4)) ∧
        (∀ x, ¬((dataMap o1).size64 ≤ x ∧ x < (caseMap o1).size64 + 4 ∧
            (dataMap o2).size64 ≤ x ∧ x < (caseMap o2).size64 + 4))) := by
  obtain ⟨count, hb, sizeF, offMap, dataMap, caseMap, _, _, _, hhb, _, _, _,
    hszF32, hszF64, hfields, hfpw, hone, hopw⟩ :=
    computeLayout_ordinary_full d hwf hme st hok
  have hFOperm : (List.insertionSort rankLE
      (d.fields.filter (fun f => f.containing_oneof == none))).Perm
      (d.fields.filter (fun f => f.containing_oneof == none)) := List.perm_insertionSort _ _
  have hOOperm : (List.insertionSort (fun a b : String => a ≤ b) d.oneof_decls).Perm
      d.oneof_decls := List.perm_insertionSort _ _
  have hmemFO : ∀ f ∈ d.fields, f.containing_oneof = none →
      f ∈ List.insertionSort rankLE (d.fields.filter (fun f => f.containing_oneof == none)) := by
    intro f hf hfnone
    rw [hFOperm.mem_iff, List.mem_filter]
    exact ⟨hf, by simp [hfnone]⟩
  refine ⟨hb, offMap, dataMap, caseMap, hhb, ?_, ?_, ?_, ?_, ?_, ?_, ?_⟩
  · intro f hf hfnone
    exact (hfields f (hmemFO f hf hfnone)).1
  · intro o ho
    obtain ⟨m1, m2, _, _, _, _, _⟩ := hone o (hOOperm.mem_iff.mpr ho)
    exact ⟨m1, m2⟩
  · intro f hf hfnone
    obtain ⟨_, h2, h3, _, _⟩ := hfields f (hmemFO f hf hfnone)
    exact ⟨h2, h3⟩
  · intro o ho
    obtain ⟨_, _, _, m4, m5, _, _⟩ := hone o (hOOperm.mem_iff.mpr ho)
    exact ⟨le_trans hszF32 m4, le_trans hszF64 m5⟩
  · intro f hf g hg hfnone hgnone hfg
    have hfFO := hmemFO f hf hfnone
    have hgFO := hmemFO g hg hgnone
    have hfne : f ≠ g := fun hcon => hfg (by rw [hcon])
    obtain ⟨i1, hi1⟩ := List.mem_iff_get.mp hfFO
    obtain ⟨i2, hi2⟩ := List.mem_iff_get.mp hgFO
    have hpwget := List.pairwise_iff_get.mp hfpw
    rcases Nat.lt_trichotomy i1.val i2.val with hcase | hcase | hcase
    · have hrel := hpwget i1 i2 (by exact hcase)
      rw [hi1, hi2] at hrel
      exact ⟨fun x hx => by omega, fun x hx => by omega⟩
    · exfalso
      have : i1 = i2 := Fin.ext hcase
      subst this
      rw [hi1] at hi2
      exact hfne hi2
    · have hrel := hpwget i2 i1 (by exact hcase)
      rw [hi1, hi2] at hrel
      exact ⟨fun x hx => by omega, fun x hx => by omega⟩
  · intro f hf hfnone o ho
    obtain ⟨_, _, _, h4, h5⟩ := hfields f (hmemFO f hf hfnone)
    obtain ⟨_, _, _, m4, m5, _, _⟩ := hone o (hOOperm.mem_iff.mpr ho)
    exact ⟨fun x hx => by omega, fun x hx => by omega⟩
  · intro o1 ho1 o2 ho2 hne
    have h1 := hOOperm.mem_iff.mpr ho1
    have h2 := hOOperm.mem_iff.mpr ho2
    obtain ⟨i1, hi1⟩ := List.mem_iff_get.mp h1
    obtain ⟨i2, hi2⟩ := List.mem_iff_get.mp h2
    have hpwget := List.pairwise_iff_get.mp hopw
    rcases Nat.lt_trichotomy i1.val i2.val with hcase | hcase | hcase
    · have hrel := hpwget i1 i2 (by exact hcase)
      rw [hi1, hi2] at hrel
      have hd1 := hone o1 h1
      obtain ⟨_, _, hc1, hda1, _, _, _⟩ := hd1
      exact ⟨fun x hx => by omega, fun x hx => by omega⟩
    · exfalso
      have : i1 = i2 := Fin.ext hcase
      subst this
      rw [hi1] at hi2
      exact hne hi2
    · have hrel := hpwget i2 i1 (by exact hcase)
      rw [hi1, hi2] at hrel
      exact ⟨fun x hx => by omega, fun x hx => by omega⟩

/-- Witness for C5 at the concrete ordinary message `dFull`. -/
theorem C5_witness :
    WF dFull ∧ dFull.map_entry = false ∧
      ∃ st, ComputeLayout dFull = .ok st ∧
        ∃ (hb : Nat) (offMap : Nat → DualSize) (dataMap caseMap : String → DualSize),
          st.hasbit_bytes = some hb ∧
          (∀ f ∈ dFull.fields, f.containing_oneof = none →
            st.field_offsets f.number = some (offMap f.number)) ∧
          (∀ o ∈ dFull.oneof_decls, st.oneof_case_offsets o = some (caseMap o) ∧
            ∀ f ∈ oneofFieldsOf dFull o, st.field_offsets f.number = some (dataMap o)) ∧
          (∀ f ∈ dFull.fields, f.containing_oneof = none →
            hb ≤ (offMap f.number).size32 ∧ hb ≤ (offMap f.number).size64) ∧
          (∀ o ∈ dFull.oneof_decls, hb ≤ (dataMap o).size32 ∧ hb ≤ (dataMap o).size64) ∧
          (∀ f ∈ dFull.fields, ∀ g ∈ dFull.fields,
            f.containing_oneof = none → g.containing_oneof = none → f.number ≠ g.number →
            (∀ x, ¬((offMap f.number).size32 ≤ x ∧
                x < (offMap f.number).size32 + (SizeOfField f).size.size32 ∧
                (offMap g.number).size32 ≤ x ∧
                x < (offMap g.number).size32 + (SizeOfField g).size.size32)) ∧
            (∀ x, ¬((offMap f.number).size64 ≤ x ∧
                x < (offMap f.number).size64 + (SizeOfField f).size.size64 ∧
                (offMap g.number).size64 ≤ x ∧
                x < (offMap g.number).size64 + (SizeOfField g).size.size64))) ∧
          (∀ f ∈ dFull.fields, f.containing_oneof = none → ∀ o ∈ dFull.oneof_decls,
            (∀ x, ¬((offMap f.number).size32 ≤ x ∧
                x < (offMap f.number).size32 + (SizeOfField f).size.size32 ∧
                (dataMap o).size32 ≤ x ∧ x < (caseMap o).size32 + 4)) ∧
            (∀ x, ¬((offMap f.number).size64 ≤ x ∧
                x < (offMap f.number).size64 + (SizeOfField f).size.size64 ∧
                (dataMap o).size64 ≤ x ∧ x < (caseMap o).size64 + 4))) ∧
          (∀ o1 ∈ dFull.oneof_decls, ∀ o2 ∈ dFull.oneof_decls, o1 ≠ o2 →
            (∀ x, ¬((dataMap o1).size32 ≤ x ∧ x < (caseMap o1).size32 + 4 ∧
                (dataMap o2).size32 ≤ x ∧ x < (caseMap o2).size32 + 4)) ∧
            (∀ x, ¬((dataMap o1).size64 ≤ x ∧ x < (caseMap o1).size64 + 4 ∧
                (dataMap o2).size64 ≤ x ∧ x < (caseMap o2).size64 + 4))) := by
  have hok : ∃ st, ComputeLayout dFull = .ok st := by
    cases h : ComputeLayout dFull with
    | error e =>
      have : errorNameOf dFull = none := by decide
      rw [errorNameOf, h] at this
      cases e
      exact absurd this (by simp)
    | ok st => exact ⟨st, rfl⟩
  obtain ⟨st, hst⟩ := hok
  exact ⟨by decide, rfl, st, hst, C5_nonoverlap dFull st (by decide) rfl hst⟩

/-! ### Order-insensitivity of the three sorts (towards C8) -/

theorem dualSize_ext (a b : DualSize) (h1 : a.size32 = b.size32)
    (h2 : a.size64 = b.size64) : a = b := by
  cases a
  cases b
  cases h1
  cases h2
  rfl

theorem sizeAndAlign_ext (a b : SizeAndAlign) (h1 : a.size = b.size)
    (h2 : a.align = b.align) : a = b := by
  cases a
  cases b
  cases h1
  cases h2
  rfl

theorem maxFrom_right_comm (z x y : SizeAndAlign) :
    (z.maxFrom x).maxFrom y = (z.maxFrom y).maxFrom x := by
  apply sizeAndAlign_ext <;> apply dualSize_ext <;>
    simp [Nat.max_comm, Nat.max_left_comm, Nat.max_assoc]

theorem eq_of_perm_of_sorted_on {α : Type} {r : α → α → Prop} :
    ∀ (l1 l2 : List α), l1.Perm l2 → l1.Sorted r → l2.Sorted r →
      (∀ a ∈ l1, ∀ b ∈ l1, r a b → r b a → a = b) → l1 = l2 := by
  intro l1
  induction l1 with
  | nil =>
    intro l2 hp _ _ _
    cases l2 with
    | nil => rfl
    | cons b t2 => exact absurd hp (by simp)
  | cons a t1 ih =>
    intro l2 hp hs1 hs2 hanti
    cases l2 with
    | nil => exact absurd hp (by simp)
    | cons b t2 =>
      by_cases hab : a = b
      · subst hab
        have hp' : t1.Perm t2 := hp.cons_inv
        have ht := ih t2 hp' hs1.of_cons hs2.of_cons
          (fun x hx y hy => hanti x (List.mem_cons_of_mem a hx) y (List.mem_cons_of_mem a hy))
        rw [ht]
      · exfalso
        have ha2 : a ∈ b :: t2 := hp.subset (List.mem_cons_self a t1)
        have hb1 : b ∈ a :: t1 := hp.symm.subset (List.mem_cons_self b t2)
        have ha2' : a ∈ t2 := by
          rcases List.mem_cons.mp ha2 with h | h
          · exact absurd h hab
          · exact h
        have hb1' : b ∈ t1 := by
          rcases List.mem_cons.mp hb1 with h | h
          · exact absurd h.symm hab
          · exact h
        have hrab : r a b := (List.sorted_cons.mp hs1).1 b hb1'
        have hrba : r b a := (List.sorted_cons.mp hs2).1 a ha2'
        exact hab (hanti a (List.mem_cons_self a t1) b (List.mem_cons_of_mem a hb1') hrab hrba)

theorem hotnessLE_antisymm_number {a b : FieldDescriptor}
    (h1 : hotnessLE a b) (h2 : hotnessLE b a) : a.number = b.number := by
  unfold hotnessLE at h1 h2
  omega

theorem rankLE_antisymm_number {a b : FieldDescriptor}
    (ha : a.number < 2 ^ 29) (hb : b.number < 2 ^ 29)
    (h1 : rankLE a b) (h2 : rankLE b a) : a.number = b.number := by
  unfold rankLE at h1 h2
  have heq : FieldLayoutRank a = FieldLayoutRank b := Nat.le_antisymm h1 h2
  have := FieldLayoutRank_mod a ha
  rw [heq, FieldLayoutRank_mod b hb] at this
  exact this.symm

theorem hotness_sort_eq (d1 d2 : Descriptor) (hperm : d1.fields.Perm d2.fields)
    (hnd : (d1.fields.map (fun f => f.number)).Nodup) :
    FieldHotnessOrder d1 = FieldHotnessOrder d2 := by
  apply eq_of_perm_of_sorted_on _ _
    (((List.perm_insertionSort hotnessLE d1.fields).trans hperm).trans
      (List.perm_insertionSort hotnessLE d2.fields).symm)
    (List.sorted_insertionSort hotnessLE d1.fields)
    (List.sorted_insertionSort hotnessLE d2.fields)
  intro a hha b hhb h1 h2
  have ha1 : a ∈ d1.fields := (List.perm_insertionSort hotnessLE d1.fields).mem_iff.mp hha
  have hb1 : b ∈ d1.fields := (List.perm_insertionSort hotnessLE d1.fields).mem_iff.mp hhb
  exact List.inj_on_of_nodup_map hnd ha1 hb1 (hotnessLE_antisymm_number h1 h2)

theorem rank_sort_eq (d1 d2 : Descriptor) (hperm : d1.fields.Perm d2.fields)
    (hnd : (d1.fields.map (fun f => f.number)).Nodup)
    (hlt : ∀ f ∈ d1.fields, f.number < 2 ^ 29) :
    List.insertionSort rankLE (d1.fields.filter (fun f => f.containing_oneof == none)) =
      List.insertionSort rankLE (d2.fields.filter (fun f => f.containing_oneof == none)) := by
  have hfperm := hperm.filter (fun f => f.containing_oneof == none)
  apply eq_of_perm_of_sorted_on _ _
    (((List.perm_insertionSort rankLE _).trans hfperm).trans
      (List.perm_insertionSort rankLE _).symm)
    (List.sorted_insertionSort rankLE _)
    (List.sorted_insertionSort rankLE _)
  intro a hha b hhb h1 h2
  have ha1 : a ∈ d1.fields :=
    List.mem_of_mem_filter ((List.perm_insertionSort rankLE _).mem_iff.mp hha)
  have hb1 : b ∈ d1.fields :=
    List.mem_of_mem_filter ((List.perm_insertionSort rankLE _).mem_iff.mp hhb)
  exact List.inj_on_of_nodup_map hnd ha1 hb1
    (rankLE_antisymm_number (hlt a ha1) (hlt b hb1) h1 h2)

theorem oneof_sort_eq (d1 d2 : Descriptor) (hperm : d1.oneof_decls.Perm d2.oneof_decls) :
    List.insertionSort (fun a b : String => a ≤ b) d1.oneof_decls =
      List.insertionSort (fun a b : String => a ≤ b) d2.oneof_decls := by
  apply eq_of_perm_of_sorted_on _ _
    (((List.perm_insertionSort _ d1.oneof_decls).trans hperm).trans
      (List.perm_insertionSort _ d2.oneof_decls).symm)
    (List.sorted_insertionSort _ d1.oneof_decls)
    (List.sorted_insertionSort _ d2.oneof_decls)
  intro a _ b _ h1 h2
  exact le_antisymm h1 h2

/-! ### Congruence of the passes under declaration-order permutation -/

theorem oneofMaxSize_perm {m1 m2 : List FieldDescriptor} (hp : m1.Perm m2) :
    oneofMaxSize m1 = oneofMaxSize m2 := by
  unfold oneofMaxSize
  exact hp.foldl_eq' (fun x _ y _ z => maxFrom_right_comm z (SizeOfField x) (SizeOfField y)) _

theorem setMemberOffsets_perm {m1 m2 : List FieldDescriptor} (hp : m1.Perm m2)
    (data : DualSize) (m : Nat → Option DualSize) :
    setMemberOffsets m1 data m = setMemberOffsets m2 data m := by
  funext n
  rw [setMemberOffsets_lookup, setMemberOffsets_lookup]
  by_cases hn : n ∈ m1.map (fun f => f.number)
  · rw [if_pos hn, if_pos ((hp.map (fun f => f.number)).mem_iff.mp hn)]
  · rw [if_neg hn, if_neg (fun hcon => hn ((hp.map (fun f => f.number)).mem_iff.mpr hcon))]

theorem oneofFieldsOf_perm (d1 d2 : Descriptor) (hperm : d1.fields.Perm d2.fields)
    (o : String) : (oneofFieldsOf d1 o).Perm (oneofFieldsOf d2 o) :=
  hperm.filter _

theorem placeOneofList_congr (d1 d2 : Descriptor)
    (hof : ∀ o, (oneofFieldsOf d1 o).Perm (oneofFieldsOf d2 o)) :
    ∀ (l : List String) (st : LayoutState), placeOneofList d1 l st = placeOneofList d2 l st := by
  intro l
  induction l with
  | nil => exact fun st => rfl
  | cons o rest ih =>
    intro st
    simp only [placeOneofList]
    rw [oneofMaxSize_perm (hof o), setMemberOffsets_perm (hof o)]
    exact ih _

theorem PlaceNonOneofFields_congr (d1 d2 : Descriptor) (st : LayoutState)
    (h1 : d1.map_entry = d2.map_entry)
    (h2 : FieldHotnessOrder d1 = FieldHotnessOrder d2)
    (h3 : List.insertionSort rankLE (d1.fields.filter (fun f => f.containing_oneof == none)) =
      List.insertionSort rankLE (d2.fields.filter (fun f => f.containing_oneof == none))) :
    PlaceNonOneofFields d1 st = PlaceNonOneofFields d2 st := by
  unfold PlaceNonOneofFields
  rw [h1, h2, h3]

theorem PlaceOneofFields_congr (d1 d2 : Descriptor)
    (hdecl : List.insertionSort (fun a b : String => a ≤ b) d1.oneof_decls =
      List.insertionSort (fun a b : String => a ≤ b) d2.oneof_decls)
    (hof : ∀ o, (oneofFieldsOf d1 o).Perm (oneofFieldsOf d2 o)) :
    ∀ st, PlaceOneofFields d1 st = PlaceOneofFields d2 st := by
  intro st
  unfold PlaceOneofFields
  rw [hdecl]
  exact placeOneofList_congr d1 d2 hof _ _

/-- Claim C8: `compute_layout` is deterministic and its output is invariant
under any permutation of the schema's raw field-declaration and
oneof-declaration order (given distinct field numbers and distinct oneof
qualified names): the two runs produce equal layouts — identical field
offsets, oneof discriminator offsets, presence-bit indices, and total size —
because the only orderings that affect the output are `FieldLayoutRank`,
`FieldHotnessOrder`, and the oneof qualified-name order, all of which are
insensitive to declaration order.  (Determinism for a fixed schema is
immediate: `ComputeLayout` is a function.) -/
theorem C8_order_invariance (d1 d2 : Descriptor) (hwf : WF d1)
    (hfp : d1.fields.Perm d2.fields) (hop : d1.oneof_decls.Perm d2.oneof_decls)
    (hm : d1.map_entry = d2.map_entry) :
    ComputeLayout d1 = ComputeLayout d2 := by
  by_cases hme : d1.map_entry = true
  · rw [computeLayout_map_entry d1 hme, computeLayout_map_entry d2 (hm ▸ hme)]
  · have hme1 : d1.map_entry = false := by
      cases h : d1.map_entry
      · rfl
      · exact absurd h hme
    have hme2 : d2.map_entry = false := hm ▸ hme1
    unfold ComputeLayout
    rw [if_neg (by simp [hme1]), if_neg (by simp [hme2])]
    have hPN := PlaceNonOneofFields_congr d1 d2
      { initLayoutState with size := ⟨0, 0⟩, maxalign := ⟨8, 8⟩ } hm
      (hotness_sort_eq d1 d2 hfp hwf.1)
      (rank_sort_eq d1 d2 hfp hwf.1 hwf.2.1)
    have hPO : PlaceOneofFields d1 = PlaceOneofFields d2 :=
      funext (PlaceOneofFields_congr d1 d2 (oneof_sort_eq d1 d2 hop)
        (oneofFieldsOf_perm d1 d2 hfp))
    rw [hPN, hPO]

/-- Witness for C8: the concrete message `dFull` against its permuted
declaration `dFullPerm`. -/
theorem C8_witness :
    WF dFull ∧ dFull.fields.Perm dFullPerm.fields ∧
      dFull.oneof_decls.Perm dFullPerm.oneof_decls ∧
      dFull.map_entry = dFullPerm.map_entry ∧
      ComputeLayout dFull = ComputeLayout dFullPerm := by
  refine ⟨by decide, by decide, by decide, rfl, ?_⟩
  exact C8_order_invariance dFull dFullPerm (by decide) (by decide) (by decide) rfl
